import Mathlib

/-!
Shallow embedding of the ssh-menu program (Go) and proofs about its
configuration parser, host registry, color configuration, command-line host
selection and interactive selector state machine.

Conventions used throughout:
* a Go `[]Host` is a `List Host`; a Go `map[int]bool` used as a set of menu
  numbers is a `List Nat` of its keys; a Go `map[string]bool` used as a set of
  group names is a `List String`;
* `fmt.Printf` + `os.Exit(1)` inside a library function is modelled by
  returning `Except.error`, and a function that can only fail that way returns
  `Except String`;
* a text file is a `List String` of its lines (the `bufio.Scanner` /
  `strings.Split` line splitting already applied); an unreadable file is
  `Option.none`;
* machine integers that the program only ever uses with small non-negative
  values (`MenuNumber`, the SSH tuning fields) are `Nat`; `strconv.Atoi`
  overflow is modelled explicitly where the program calls it.
-/

namespace SshMenu

instance {ε α : Type} [DecidableEq ε] [DecidableEq α] : DecidableEq (Except ε α) :=
  fun a b =>
    match a, b with
    | .ok x, .ok y =>
      if h : x = y then isTrue (by rw [h]) else isFalse (fun hc => by cases hc; exact h rfl)
    | .error x, .error y =>
      if h : x = y then isTrue (by rw [h]) else isFalse (fun hc => by cases hc; exact h rfl)
    | .ok _, .error _ => isFalse (fun hc => Except.noConfusion hc)
    | .error _, .ok _ => isFalse (fun hc => Except.noConfusion hc)

/-! ## Character classes and string helpers -/

/-- Character class of Go regexp `\s`, which is `[\t\n\f\r ]`. -/
def isRegexSpace (c : Char) : Bool :=
  c = ' ' || c = '\t' || c = '\n' || c = '\x0c' || c = '\r'

/-- Whitespace recognized by Go `strings.TrimSpace` (`unicode.IsSpace`),
modelled on the Latin-1 range. -/
def isGoSpace (c : Char) : Bool :=
  c = ' ' || c = '\t' || c = '\n' || c = '\x0b' || c = '\x0c' || c = '\r' ||
  c = '\x85' || c = '\xA0'

def trimLeft (l : List Char) : List Char := l.dropWhile isGoSpace

def trimRight (l : List Char) : List Char := (l.reverse.dropWhile isGoSpace).reverse

/-- Go `strings.TrimSpace` on a list of characters. -/
def trimSpace (l : List Char) : List Char := trimRight (trimLeft l)

def goTrimSpace (s : String) : String := ⟨trimSpace s.data⟩

/-- Value of a decimal digit string. -/
def digitsVal (ds : List Char) : Nat :=
  ds.foldl (fun a c => a * 10 + (c.toNat - '0'.toNat)) 0

def int64Max : Nat := 9223372036854775807

/-- Go `strconv.Atoi` applied to a nonempty string of decimal digits: it can
fail only by overflowing the 64-bit `int` range. -/
def atoiDigits (ds : List Char) : Option Nat :=
  let n := digitsVal ds
  if n ≤ int64Max then some n else none

/-- Go `strconv.Atoi` on an arbitrary string: optional sign, then at least one
digit, value within the 64-bit `int` range. -/
def goAtoi (s : List Char) : Option Int :=
  match s with
  | [] => none
  | '+' :: ds =>
    if !ds.isEmpty && ds.all Char.isDigit && decide (digitsVal ds ≤ int64Max) then
      some (digitsVal ds)
    else none
  | '-' :: ds =>
    if !ds.isEmpty && ds.all Char.isDigit && decide (digitsVal ds ≤ int64Max + 1) then
      some (-(digitsVal ds : Int))
    else none
  | ds =>
    if ds.all Char.isDigit && decide (digitsVal ds ≤ int64Max) then
      some (digitsVal ds)
    else none

/-- Go `strings.ToLower`, modelled per character on the ASCII range. -/
def lowerChars (l : List Char) : List Char := l.map Char.toLower

/-! ## Regex matchers

The parser uses `regexp.FindStringSubmatch` with patterns anchored as
`^...$`, so a pattern either matches the whole (already trimmed) line or not
at all.  Each pattern is embedded as a total function returning its capture
groups.  Go's regexp engine has leftmost-greedy submatch semantics; the only
places where greediness is observable (`\s+(.+)$`, `\s*(.+)$`) are embedded
with the same backtracking order (longest run of spaces first). -/

/-- Matcher for a trailing `(.+)$`: the whole remainder, which must be
nonempty and must not contain a newline (Go `.` does not match `\n`). -/
def capRest (s : List Char) : Option (List Char) :=
  if !s.isEmpty && s.all (fun c => c != '\n') then some s else none

/-- Matcher for a trailing `\s+(.+)$` with greedy backtracking. -/
def spacesPlusCap : List Char → Option (List Char)
  | [] => none
  | c :: cs =>
    if isRegexSpace c then
      match spacesPlusCap cs with
      | some r => some r
      | none => capRest cs
    else none

/-- Matcher for a trailing `\s*(.+)$` with greedy backtracking. -/
def starSpacesCap : List Char → Option (List Char)
  | [] => none
  | c :: cs =>
    if isRegexSpace c then
      match starSpacesCap cs with
      | some r => some r
      | none => capRest (c :: cs)
    else capRest (c :: cs)

/-- Consume a literal prefix. -/
def dropLit : List Char → List Char → Option (List Char)
  | [], s => some s
  | _ :: _, [] => none
  | c :: cs, d :: ds => if c = d then dropLit cs ds else none

/-- Pattern `^KW\s+(.+)$` (used for `Host`, `Hostname`, `User`,
`IdentityFile`). -/
def matchKeywordRest (kw : List Char) (s : List Char) : Option (List Char) :=
  match dropLit kw s with
  | some rest => spacesPlusCap rest
  | none => none

/-- Pattern `^KW\s+(\d+)$` (used for `Port`, `ConnectTimeout`,
`ServerAliveInterval`, `ServerAliveCountMax`).  The classes `\s`, `\d` and the
end anchor are pairwise disjoint, so matching is deterministic. -/
def matchKeywordDigits (kw : List Char) (s : List Char) : Option (List Char) :=
  match dropLit kw s with
  | some rest =>
    let sp := rest.takeWhile isRegexSpace
    let r1 := rest.dropWhile isRegexSpace
    let ds := r1.takeWhile Char.isDigit
    let r2 := r1.dropWhile Char.isDigit
    if decide (1 ≤ sp.length) && decide (1 ≤ ds.length) && r2.isEmpty then some ds
    else none
  | none => none

/-- Pattern fragment `(?:\s+(\d+))?:` of the menu regex: the optional group is
tried first (it needs at least one space, at least one digit, then a colon);
otherwise a colon must follow immediately.  When the group's digits are not
followed by a colon no backtracking can rescue it, because space, digit and
colon are pairwise distinct characters. -/
def menuNumAndColon (s : List Char) : Option (Option (List Char) × List Char) :=
  let sp := s.takeWhile isRegexSpace
  let r1 := s.dropWhile isRegexSpace
  let ds := r1.takeWhile Char.isDigit
  let r2 := r1.dropWhile Char.isDigit
  if decide (1 ≤ sp.length) && decide (1 ≤ ds.length) && (r2.head? == some ':') then
    some (some ds, r2.tail)
  else
    match s with
    | c :: r => if c = ':' then some (none, r) else none
    | [] => none

/-- Pattern `^#\s*Menu(?:\s+(\d+))?:\s*(.+)$`; returns the optional explicit
number capture (as its digit string) and the description capture. -/
def matchMenu (s : List Char) : Option (Option (List Char) × List Char) :=
  match s with
  | c :: rest =>
    if c = '#' then
      match dropLit "Menu".data (rest.dropWhile isRegexSpace) with
      | some r2 =>
        match menuNumAndColon r2 with
        | some nc =>
          match starSpacesCap nc.2 with
          | some cap => some (nc.1, cap)
          | none => none
        | none => none
      | none => none
    else none
  | [] => none

/-- Pattern `^#\s*TAG\s*(.+)$` where `TAG` includes its colon (used for
`IP:`, `Group:` and the six `Color*:` tags). -/
def matchHashTag (tag : List Char) (s : List Char) : Option (List Char) :=
  match s with
  | c :: rest =>
    if c = '#' then
      match dropLit tag (rest.dropWhile isRegexSpace) with
      | some r2 => starSpacesCap r2
      | none => none
    else none
  | [] => none

/-- Pattern `^Host\s+(.+)$`. -/
def matchHost (s : List Char) : Option (List Char) :=
  matchKeywordRest "Host".data s

/-! ## Host records and the config parser -/

/-- Go struct `internal.Host`. -/
structure Host where
  shortName : String
  longName : String
  user : String
  port : String
  ip : String
  identityFile : String
  descText : String
  menuNumber : Nat
  groups : List String
  serverAliveInterval : Nat
  serverAliveCountMax : Nat
  connectTimeout : Nat
deriving DecidableEq, Repr

/-- Initial `current` value in `readConfigFile` (fields not listed in the Go
composite literal take their zero values). -/
def emptyHost : Host :=
  { shortName := "", longName := "", user := "root", port := "22", ip := "",
    identityFile := "", descText := "", menuNumber := 0, groups := [],
    serverAliveInterval := 0, serverAliveCountMax := 0, connectTimeout := 0 }

/-- Fresh entry started by `handleHostLine` for a `Host <name>` line. -/
def initialHost (name : String) : Host :=
  { shortName := name, longName := name, user := "root", port := "22", ip := "",
    identityFile := "", descText := "", menuNumber := 0, groups := [],
    serverAliveInterval := 0, serverAliveCountMax := 0, connectTimeout := 0 }

/-- Retention test applied when a block is finalized. -/
def retainedB (h : Host) : Bool := h.shortName != "" && h.descText != ""

/-- Finalization in `handleHostLine` and at end of file: append `current` to
the result only when it passes the retention test. -/
def retainHost (hosts : List Host) (current : Host) : List Host :=
  if retainedB current then hosts ++ [current] else hosts

/-- `handleMenuLine`: a present number capture is parsed with `strconv.Atoi`
(the capture is all digits, so only overflow can fail; on failure the
description is not stored and the error aborts the file); an absent capture
resets the number to 0. -/
def handleMenuLine (num : Option (List Char)) (cap : List Char) (current : Host) :
    Except String Host :=
  match num with
  | some ds =>
    match atoiDigits ds with
    | some n => .ok { current with menuNumber := n, descText := ⟨cap⟩ }
    | none => .error "invalid menu number"
  | none => .ok { current with menuNumber := 0, descText := ⟨cap⟩ }

/-- `handleGroupLine`: trim the capture and append it to `groups` unless
already present. -/
def handleGroupLine (cap : List Char) (current : Host) : Host :=
  let g := goTrimSpace ⟨cap⟩
  if current.groups.contains g then current
  else { current with groups := current.groups ++ [g] }

/-- Body of `parseLine` for a line that is not a `Host` line, trying the
remaining patterns in the source's order.  An unmatched line is ignored. -/
def applyNonHostLine (line : List Char) (current : Host) : Except String Host :=
  match matchKeywordRest "Hostname".data line with
  | some cap => .ok { current with longName := ⟨cap⟩ }
  | none =>
  match matchKeywordRest "User".data line with
  | some cap => .ok { current with user := ⟨cap⟩ }
  | none =>
  match matchKeywordDigits "Port".data line with
  | some ds => .ok { current with port := ⟨ds⟩ }
  | none =>
  match matchKeywordRest "IdentityFile".data line with
  | some cap => .ok { current with identityFile := ⟨cap⟩ }
  | none =>
  match matchMenu line with
  | some nc => handleMenuLine nc.1 nc.2 current
  | none =>
  match matchHashTag "IP:".data line with
  | some cap => .ok { current with ip := ⟨cap⟩ }
  | none =>
  match matchHashTag "Group:".data line with
  | some cap => .ok (handleGroupLine cap current)
  | none =>
  match matchKeywordDigits "ConnectTimeout".data line with
  | some ds => .ok { current with connectTimeout := (atoiDigits ds).getD current.connectTimeout }
  | none =>
  match matchKeywordDigits "ServerAliveInterval".data line with
  | some ds => .ok { current with serverAliveInterval := (atoiDigits ds).getD current.serverAliveInterval }
  | none =>
  match matchKeywordDigits "ServerAliveCountMax".data line with
  | some ds => .ok { current with serverAliveCountMax := (atoiDigits ds).getD current.serverAliveCountMax }
  | none => .ok current

/-- `parseLine`: the `Host` pattern is tried first; it finalizes the previous
entry and starts a new one. -/
def parseLineStep (line : List Char) (st : List Host × Host) :
    Except String (List Host × Host) :=
  match matchHost line with
  | some name => .ok (retainHost st.1 st.2, initialHost ⟨name⟩)
  | none => (applyNonHostLine line st.2).map (fun c => (st.1, c))

/-- Loop body of `readConfigFile`: trim the line, skip it when empty,
otherwise feed it to `parseLine`. -/
def readStep (st : List Host × Host) (l : String) : Except String (List Host × Host) :=
  let t := trimSpace l.data
  if t.isEmpty then pure st else parseLineStep t st

/-- `readConfigFile`: scan lines with `readStep`, finalize the last entry at
end of file. -/
def readConfigFile (lines : List String) : Except String (List Host) := do
  let st ← lines.foldlM readStep ([], emptyHost)
  pure (retainHost st.1 st.2)

/-! ### Block-structured view of the parser, used to state C3 -/

/-- Trimmed, nonempty lines of a file, exactly the lines `readConfigFile`
feeds to `parseLine`. -/
def prepLines (lines : List String) : List (List Char) :=
  (lines.map (fun l => trimSpace l.data)).filter (fun t => !t.isEmpty)

/-- The same parse, running directly on prepared lines. -/
def parsePrepped (lines : List (List Char)) : Except String (List Host) := do
  let st ← lines.foldlM (fun st l => parseLineStep l st) ([], emptyHost)
  pure (retainHost st.1 st.2)

/-- Fold the non-`Host` lines of one block over an entry. -/
def processBlock (current : Host) (ls : List (List Char)) : Except String Host :=
  ls.foldlM (fun c l => applyNonHostLine l c) current

def splitBlocksAux (name : List Char) (acc : List (List Char)) :
    List (List Char) → List (List Char × List (List Char))
  | [] => [(name, acc)]
  | l :: ls =>
    match matchHost l with
    | some n => (name, acc) :: splitBlocksAux n [] ls
    | none => splitBlocksAux name (acc ++ [l]) ls

/-- Split prepared lines into the preamble (lines before the first `Host`
line) and the `Host` blocks, each block being its name capture plus the lines
up to the next `Host` line or end of file. -/
def splitBlocks : List (List Char) → List (List Char) × List (List Char × List (List Char))
  | [] => ([], [])
  | l :: ls =>
    match matchHost l with
    | some n => ([], splitBlocksAux n [] ls)
    | none =>
      let p := splitBlocks ls
      (l :: p.1, p.2)

/-- Specification-side description of the parser result: process every block
independently from a fresh entry and keep, in file order, exactly the blocks
whose final short name and description are both nonempty.  (The preamble is
still processed, because a malformed menu line there aborts the parse.) -/
def blocksSpec (lines : List String) : Except String (List Host) := do
  let _ ← processBlock emptyHost (splitBlocks (prepLines lines)).1
  let hs ← (splitBlocks (prepLines lines)).2.mapM
    (fun b => processBlock (initialHost ⟨b.1⟩) b.2)
  pure (hs.filter retainedB)

/-! ## Host registry (`AssignMenuNumbers`, `GetAllGroups`) -/

/-- Pass 1 of `AssignMenuNumbers`: collect explicit menu numbers, failing on
the first duplicate (`fmt.Printf` + `os.Exit(1)` in the source). -/
def checkDuplicates : List Host → List Nat → Except String (List Nat)
  | [], used => .ok used
  | h :: t, used =>
    if h.menuNumber ≠ 0 then
      if h.menuNumber ∈ used then .error "Duplicate menu number"
      else checkDuplicates t (h.menuNumber :: used)
    else checkDuplicates t used

def listMax : List Nat → Nat
  | [] => 0
  | n :: t => max n (listMax t)

def nextFreeAux : Nat → List Nat → Nat → Nat
  | 0, _, n => n
  | fuel + 1, used, n => if n ∈ used then nextFreeAux fuel used (n + 1) else n

/-- The Go loop `for usedNumbers[nextAvailable] { nextAvailable++ }`.  The
fuel `listMax used + 1` always suffices, because the loop necessarily stops
once the counter passes the largest used number. -/
def nextFree (used : List Nat) (n : Nat) : Nat := nextFreeAux (listMax used + 1) used n

/-- Pass 2 of `AssignMenuNumbers` exactly as the source runs it: the search
counter `nextAvailable` is carried across entries. -/
def assignLoop : List Host → List Nat → Nat → List Host
  | [], _, _ => []
  | h :: t, used, next =>
    if h.menuNumber = 0 then
      let v := nextFree used next
      { h with menuNumber := v } :: assignLoop t (v :: used) v
    else h :: assignLoop t used next

/-- Pass 2 as the claim words it: each unassigned entry, in list order, gets
the smallest positive integer not in the used set (the scan restarts from 1
every time), marked used immediately. -/
def pass2Spec : List Host → List Nat → List Host
  | [], _ => []
  | h :: t, used =>
    if h.menuNumber = 0 then
      let v := nextFree used 1
      { h with menuNumber := v } :: pass2Spec t (v :: used)
    else h :: pass2Spec t used

/-- Success path of pass 1: the used set it returns. -/
def collectExplicit : List Host → List Nat → List Nat
  | [], used => used
  | h :: t, used =>
    collectExplicit t (if h.menuNumber ≠ 0 then h.menuNumber :: used else used)

def menuLe (a b : Host) : Prop := a.menuNumber ≤ b.menuNumber

instance : DecidableRel menuLe := fun a b =>
  inferInstanceAs (Decidable (a.menuNumber ≤ b.menuNumber))

instance : IsTotal Host menuLe := ⟨fun a b => Nat.le_total a.menuNumber b.menuNumber⟩

instance : IsTrans Host menuLe := ⟨fun _ _ _ => Nat.le_trans⟩

/-- The final `sort.Slice(hosts, MenuNumber <)`.  Go's `sort.Slice` is an
unspecified comparison sort, but after the two passes all menu numbers are
pairwise distinct, so every comparison sort produces the same list; insertion
sort serves as the executable model. -/
def sortByMenu (hosts : List Host) : List Host := List.insertionSort menuLe hosts

/-- `AssignMenuNumbers`: validate explicit numbers, fill the gaps, sort. -/
def AssignMenuNumbers (hosts : List Host) : Except String (List Host) := do
  let used ← checkDuplicates hosts []
  pure (sortByMenu (assignLoop hosts used 1))

def insertIfAbsent (s : String) (l : List String) : List String :=
  if s ∈ l then l else l ++ [s]

/-- Key set of the `groupMap` built by `GetAllGroups` (a Go `map`; insertion
order is used here, which is immaterial because the result is sorted and the
keys are pairwise distinct). -/
def collectGroups (hosts : List Host) : List String :=
  hosts.foldl (fun acc h => h.groups.foldl (fun a g => insertIfAbsent g a) acc) []

/-- Lexicographic strict order on character lists by code point, which for
UTF-8 text coincides with Go's byte-wise `string <`. -/
def charListLt : List Char → List Char → Bool
  | [], [] => false
  | [], _ :: _ => true
  | _ :: _, [] => false
  | a :: as, b :: bs =>
    if a.toNat < b.toNat then true
    else if a.toNat = b.toNat then charListLt as bs
    else false

theorem charListLt_asymm :
    ∀ {a b : List Char}, charListLt a b = true → charListLt b a = false := by
  intro a
  induction a with
  | nil =>
    intro b hab
    cases b with
    | nil => exact absurd hab (by simp [charListLt])
    | cons y ys => rfl
  | cons x xs ih =>
    intro b hab
    cases b with
    | nil => exact absurd hab (by simp [charListLt])
    | cons y ys =>
      simp only [charListLt] at hab ⊢
      by_cases h1 : x.toNat < y.toNat
      · rw [if_neg (by omega), if_neg (by omega)]
      · by_cases h2 : x.toNat = y.toNat
        · rw [if_neg h1, if_pos h2] at hab
          rw [if_neg (by omega), if_pos (by omega)]
          exact ih hab
        · rw [if_neg h1, if_neg h2] at hab
          exact Bool.noConfusion hab

theorem charListLt_trans :
    ∀ {a b c : List Char}, charListLt a b = true → charListLt b c = true →
      charListLt a c = true := by
  intro a
  induction a with
  | nil =>
    intro b c hab hbc
    cases b with
    | nil => exact absurd hab (by simp [charListLt])
    | cons y ys =>
      cases c with
      | nil => exact absurd hbc (by simp [charListLt])
      | cons z zs => rfl
  | cons x xs ih =>
    intro b c hab hbc
    cases b with
    | nil => exact absurd hab (by simp [charListLt])
    | cons y ys =>
      cases c with
      | nil => exact absurd hbc (by simp [charListLt])
      | cons z zs =>
        simp only [charListLt] at hab hbc ⊢
        by_cases h1 : x.toNat < y.toNat
        · by_cases h3 : y.toNat < z.toNat
          · rw [if_pos (by omega)]
          · by_cases h4 : y.toNat = z.toNat
            · rw [if_pos (by omega)]
            · rw [if_neg h3, if_neg h4] at hbc
              exact Bool.noConfusion hbc
        · by_cases h2 : x.toNat = y.toNat
          · rw [if_neg h1, if_pos h2] at hab
            by_cases h3 : y.toNat < z.toNat
            · rw [if_pos (by omega)]
            · by_cases h4 : y.toNat = z.toNat
              · rw [if_neg h3, if_pos h4] at hbc
                rw [if_neg (by omega), if_pos (by omega)]
                exact ih hab hbc
              · rw [if_neg h3, if_neg h4] at hbc
                exact Bool.noConfusion hbc
          · rw [if_neg h1, if_neg h2] at hab
            exact Bool.noConfusion hab

theorem charListLt_conn :
    ∀ {a b : List Char}, charListLt a b = false → a ≠ b → charListLt b a = true := by
  intro a
  induction a with
  | nil =>
    intro b hab hne
    cases b with
    | nil => exact absurd rfl hne
    | cons y ys => exact absurd hab (by simp [charListLt])
  | cons x xs ih =>
    intro b hab hne
    cases b with
    | nil => rfl
    | cons y ys =>
      simp only [charListLt] at hab ⊢
      by_cases h1 : x.toNat < y.toNat
      · rw [if_pos h1] at hab
        exact Bool.noConfusion hab
      · by_cases h2 : x.toNat = y.toNat
        · rw [if_neg h1, if_pos h2] at hab
          have hxy : x = y := Char.eq_of_val_eq (UInt32.ext h2)
          have hne' : xs ≠ ys := fun he => hne (by rw [hxy, he])
          rw [if_neg (by omega), if_pos (by omega)]
          exact ih hab hne'
        · rw [if_pos (by omega)]

/-- Comparator of the `sort.Slice` in `GetAllGroups`: `"Ungrouped"` is never
strictly before anything, everything else is strictly before `"Ungrouped"`,
and the rest compare by Go's `string <`. -/
def goLessGroups (a b : String) : Bool :=
  if a = "Ungrouped" then false
  else if b = "Ungrouped" then true
  else charListLt a.data b.data

/-- Sortedness relation certified by any comparison sort run with
`goLessGroups`: the right element is not strictly before the left one. -/
def groupLe (a b : String) : Prop := goLessGroups b a = false

instance : DecidableRel groupLe := fun a b =>
  inferInstanceAs (Decidable (goLessGroups b a = false))

instance : IsTotal String groupLe :=
  ⟨fun a b => by
    by_cases h : goLessGroups b a = false
    · exact Or.inl h
    · right
      have htrue : goLessGroups b a = true := by
        revert h
        cases goLessGroups b a <;> simp
      show goLessGroups a b = false
      unfold goLessGroups at htrue ⊢
      by_cases hb : b = "Ungrouped"
      · rw [if_pos hb] at htrue
        exact Bool.noConfusion htrue
      · rw [if_neg hb] at htrue
        by_cases ha : a = "Ungrouped"
        · rw [if_pos ha]
        · rw [if_neg ha] at htrue
          rw [if_neg ha, if_neg hb]
          exact charListLt_asymm htrue⟩

instance : IsTrans String groupLe :=
  ⟨fun a b c hab hbc => by
    unfold groupLe goLessGroups at hab hbc ⊢
    by_cases hc : c = "Ungrouped"
    · rw [if_pos hc]
    · rw [if_neg hc] at hbc ⊢
      by_cases ha : a = "Ungrouped"
      · exfalso
        by_cases hb : b = "Ungrouped"
        · rw [if_pos hb] at hbc
          exact Bool.noConfusion hbc
        · rw [if_neg hb, if_pos ha] at hab
          exact Bool.noConfusion hab
      · rw [if_neg ha] at hab ⊢
        by_cases hb : b = "Ungrouped"
        · rw [if_pos hb] at hbc
          exact Bool.noConfusion hbc
        · rw [if_neg hb] at hab hbc
          by_cases hca : charListLt c.data a.data = false
          · exact hca
          · exfalso
            have hca' : charListLt c.data a.data = true := by
              revert hca
              cases charListLt c.data a.data <;> simp
            by_cases hcb : c.data = b.data
            · rw [hcb] at hca'
              rw [hab] at hca'
              exact Bool.noConfusion hca'
            · have hbc' : charListLt b.data c.data = true := charListLt_conn hbc hcb
              by_cases hba : b.data = a.data
              · rw [← hba] at hca'
                rw [charListLt_asymm hbc'] at hca'
                exact Bool.noConfusion hca'
              · have hab' : charListLt a.data b.data = true := charListLt_conn hab hba
                have : charListLt a.data c.data = true := charListLt_trans hab' hbc'
                rw [charListLt_asymm this] at hca'
                exact Bool.noConfusion hca'⟩

/-- `GetAllGroups`: union of the group names in use, plus `"Ungrouped"` when
some host has no groups, sorted by the comparator above.  (Go iterates the map
in arbitrary order before sorting; since the keys are distinct the sorted
result does not depend on that order.) -/
def GetAllGroups (hosts : List Host) : List String :=
  List.insertionSort groupLe
    (if hosts.any (fun h => h.groups.isEmpty) then
      insertIfAbsent "Ungrouped" (collectGroups hosts)
     else collectGroups hosts)

/-! ## Color configuration -/

structure ColorConfig where
  background : String
  foreground : String
  border : String
  selected : String
  accent : String
  dimmed : String
deriving DecidableEq, Repr

/-- `DefaultColors`. -/
def DefaultColors : ColorConfig :=
  { background := "#1e1e2e", foreground := "#cdd6f4", border := "#9399b2",
    selected := "#a6e3a1", accent := "#89dceb", dimmed := "#585b70" }

/-- Zero value of the Go `ColorConfig` struct. -/
def emptyColorConfig : ColorConfig :=
  { background := "", foreground := "", border := "", selected := "",
    accent := "", dimmed := "" }

/-- The six `SSH_MENU_COLOR_*` environment variables; `""` models an unset
variable (that is what `os.Getenv` returns for one). -/
structure ColorEnv where
  background : String
  foreground : String
  border : String
  selected : String
  accent : String
  dimmed : String
deriving DecidableEq, Repr

/-- `applyEnvVarColors`: a nonempty environment value overwrites the slot.
(The Go `for ... range` over the map visits the six variables in arbitrary
order; each one writes a distinct field, so the order is immaterial.) -/
def applyEnvVarColors (env : ColorEnv) (c : ColorConfig) : ColorConfig :=
  { background := if env.background ≠ "" then env.background else c.background,
    foreground := if env.foreground ≠ "" then env.foreground else c.foreground,
    border := if env.border ≠ "" then env.border else c.border,
    selected := if env.selected ≠ "" then env.selected else c.selected,
    accent := if env.accent ≠ "" then env.accent else c.accent,
    dimmed := if env.dimmed ≠ "" then env.dimmed else c.dimmed }

/-- Loop body of `readColorsFromConfig`: trim the line, try the six color
patterns in order (an `if`/`else if` chain), trim and store the first
capture. -/
def parseColorLine (c : ColorConfig) (line : String) : ColorConfig :=
  let l := trimSpace line.data
  match matchHashTag "ColorBackground:".data l with
  | some cap => { c with background := goTrimSpace ⟨cap⟩ }
  | none =>
  match matchHashTag "ColorForeground:".data l with
  | some cap => { c with foreground := goTrimSpace ⟨cap⟩ }
  | none =>
  match matchHashTag "ColorBorder:".data l with
  | some cap => { c with border := goTrimSpace ⟨cap⟩ }
  | none =>
  match matchHashTag "ColorSelected:".data l with
  | some cap => { c with selected := goTrimSpace ⟨cap⟩ }
  | none =>
  match matchHashTag "ColorAccent:".data l with
  | some cap => { c with accent := goTrimSpace ⟨cap⟩ }
  | none =>
  match matchHashTag "ColorDimmed:".data l with
  | some cap => { c with dimmed := goTrimSpace ⟨cap⟩ }
  | none => c

/-- `readColorsFromConfig`: an unreadable file yields the zero config. -/
def readColorsFromConfig (file : Option (List String)) : ColorConfig :=
  match file with
  | none => emptyColorConfig
  | some lines => lines.foldl parseColorLine emptyColorConfig

/-- `mergeConfigColors`: a file color lands in a slot only when that slot
still holds its built-in default and the file color is nonempty. -/
def mergeConfigColors (c : ColorConfig) (configColors : ColorConfig) : ColorConfig :=
  { background :=
      if c.background = DefaultColors.background ∧ configColors.background ≠ "" then
        configColors.background else c.background,
    foreground :=
      if c.foreground = DefaultColors.foreground ∧ configColors.foreground ≠ "" then
        configColors.foreground else c.foreground,
    border :=
      if c.border = DefaultColors.border ∧ configColors.border ≠ "" then
        configColors.border else c.border,
    selected :=
      if c.selected = DefaultColors.selected ∧ configColors.selected ≠ "" then
        configColors.selected else c.selected,
    accent :=
      if c.accent = DefaultColors.accent ∧ configColors.accent ≠ "" then
        configColors.accent else c.accent,
    dimmed :=
      if c.dimmed = DefaultColors.dimmed ∧ configColors.dimmed ≠ "" then
        configColors.dimmed else c.dimmed }

/-- `ApplyColorConfig`, the color configuration computed at startup: defaults,
then environment variables, then the merge with the file colors.  `file = none`
covers both an empty config path (the merge is skipped entirely) and an
unreadable file (the merge runs with the zero config); the two paths produce
the same configuration because merging the zero config changes nothing. -/
def ApplyColorConfig (env : ColorEnv) (file : Option (List String)) : ColorConfig :=
  mergeConfigColors (applyEnvVarColors env DefaultColors) (readColorsFromConfig file)

/-! ## Command-line host selection (`main.go`) -/

/-- `filterHostsByGroup`. -/
def filterHostsByGroup (hosts : List Host) (group : String) : List Host :=
  if group = "Ungrouped" then hosts.filter (fun h => h.groups.isEmpty)
  else hosts.filter (fun h => h.groups.contains group)

/-- Whether a host belongs to the (requested, nonempty) group in the sense of
`filterHostsByGroup`. -/
def memberOfGroup (h : Host) (group : String) : Bool :=
  if group = "Ungrouped" then h.groups.isEmpty else h.groups.contains group

/-- `handleDirectHostSelection`, reduced to the host it picks: a numeric
argument selects the first host with that menu number, any other argument the
first host matching short name, long name or IP.  `none` models the
`os.Exit(1)` on a failed lookup. -/
def handleDirectHostSelection (hosts : List Host) (input : String) : Option Host :=
  match goAtoi input.data with
  | some num => hosts.find? (fun h => (h.menuNumber : Int) == num)
  | none =>
    hosts.find? (fun h => h.shortName == input || h.longName == input || h.ip == input)

/-- The `-g` / positional-argument fragment of `main`: the group filter is
applied first (exiting when it empties the list), then the direct selection
runs on the filtered list. -/
def selectHostMain (hosts : List Host) (group : String) (input : String) : Option Host :=
  if group ≠ "" then
    let f := filterHostsByGroup hosts group
    if f.isEmpty then none else handleDirectHostSelection f input
  else handleDirectHostSelection hosts input

/-! ## Interactive selector state machine (`ui.go`) -/

/-- Predicate of the filter match in `updateFilteredHosts`: menu number by
decimal prefix, short and long name by case-insensitive prefix.  The source
appends on the first of the three tests that hits, which is exactly the
disjunction. -/
def hostMatchesFilter (ft : List Char) (h : Host) : Bool :=
  List.isPrefixOf ft (Nat.repr h.menuNumber).data ||
  List.isPrefixOf (lowerChars ft) (lowerChars h.shortName.data) ||
  List.isPrefixOf (lowerChars ft) (lowerChars h.longName.data)

/-- Filtering step of `updateFilteredHosts`: an empty filter returns the view
list unchanged, otherwise the matching hosts in view order. -/
def applyFilter (viewHosts : List Host) (ft : List Char) : List Host :=
  if ft.isEmpty then viewHosts else viewHosts.filter (hostMatchesFilter ft)

/-- `getHostsForGroup`. -/
def getHostsForGroup (hosts : List Host) (groupName : String) : List Host :=
  if groupName = "Ungrouped" then hosts.filter (fun h => h.groups.isEmpty)
  else hosts.filter (fun h => h.groups.contains groupName)

/-- Go struct `internal.Model`. -/
structure UIModel where
  hosts : List Host
  selected : Option Host
  verbose : Bool
  detailed : Bool
  sshOpts : String
  cursor : Int
  viewIndex : Int
  groups : List String
  filteredHosts : List Host
  filterText : List Char
  width : Int
  height : Int
deriving DecidableEq

/-- Go slice indexing `l[i]` with an `int` index: `none` models the runtime
panic on an out-of-range index. -/
def intGet? {α : Type} (l : List α) (i : Int) : Option α :=
  if 0 ≤ i then l.get? i.toNat else none

/-- `updateFilteredHosts`: pick the view's host list (all hosts for view 0, a
group's hosts otherwise, the nil slice when the group index is past the end),
then filter.  The group lookup is a Go slice index, hence the `Option`. -/
def updateFilteredHosts (m : UIModel) : Option UIModel :=
  let vh? : Option (List Host) :=
    if m.viewIndex = 0 then some m.hosts
    else
      let gi := m.viewIndex - 1
      if gi < (m.groups.length : Int) then
        (intGet? m.groups gi).map (getHostsForGroup m.hosts)
      else some []
  vh?.map (fun vh => { m with filteredHosts := applyFilter vh m.filterText })

/-- `moveCursor`: add the delta, clamp into `[0, len-1]` — which is `-1` when
the filtered list is empty. -/
def moveCursor (m : UIModel) (delta : Int) : UIModel :=
  let c := m.cursor + delta
  let c :=
    if c < 0 then 0
    else if (m.filteredHosts.length : Int) ≤ c then (m.filteredHosts.length : Int) - 1
    else c
  { m with cursor := c }

/-- `navigateView`: step the view index with wraparound, reset filter and
cursor, recompute the filtered list. -/
def navigateView (m : UIModel) (delta : Int) : Option UIModel :=
  let totalViews : Int := 1 + m.groups.length
  let vi := m.viewIndex + delta
  let vi := if vi < 0 then totalViews - 1 else if totalViews ≤ vi then 0 else vi
  updateFilteredHosts { m with viewIndex := vi, filterText := [], cursor := 0 }

/-- `handleBackspace`: drop the last character of a nonempty filter, recompute,
reset the cursor. -/
def handleBackspace (m : UIModel) : Option UIModel :=
  if m.filterText.isEmpty then some m
  else
    (updateFilteredHosts { m with filterText := m.filterText.dropLast }).map
      (fun m' => { m' with cursor := 0 })

/-- `handleTypedCharacter`: append, recompute, reset the cursor. -/
def handleTypedCharacter (m : UIModel) (s : List Char) : Option UIModel :=
  (updateFilteredHosts { m with filterText := m.filterText ++ s }).map
    (fun m' => { m' with cursor := 0 })

/-- `handleEnterKey`: a single filtered host is selected outright; otherwise
the host under the cursor is selected when the guard
`len > 0 && cursor < len` holds; otherwise no-op.  Both selections read the
filtered list through Go slice indexing. -/
def handleEnterKey (m : UIModel) : Option UIModel :=
  if m.filteredHosts.length = 1 then
    (intGet? m.filteredHosts 0).map (fun h => { m with selected := some h })
  else if 0 < m.filteredHosts.length ∧ m.cursor < (m.filteredHosts.length : Int) then
    (intGet? m.filteredHosts m.cursor).map (fun h => { m with selected := some h })
  else some m

/-- Key and window events consumed by `Update`.  `chars` carries the string of
a `tea.KeyRunes` message; `other` stands for any key the switch ignores. -/
inductive UIEvent : Type
  | up
  | down
  | left
  | right
  | tab
  | backspace
  | chars (s : List Char)
  | enter
  | esc
  | resize (w h : Int)
  | other
deriving DecidableEq

/-- One step of `Update`.  `esc` and `enter` also emit `tea.Quit`, which stops
the event loop; stepping past them only adds behaviors, so safety statements
over all event lists cover the real loop. -/
def uiStep (m : UIModel) : UIEvent → Option UIModel
  | .esc => some m
  | .enter => handleEnterKey m
  | .up => some (moveCursor m (-1))
  | .down => some (moveCursor m 1)
  | .left => navigateView m (-1)
  | .right => navigateView m 1
  | .tab => navigateView m 1
  | .backspace => handleBackspace m
  | .chars s => handleTypedCharacter m s
  | .resize w h => some { m with width := w, height := h }
  | .other => some m

/-- Run a list of events; `none` means some step performed an out-of-range
slice access. -/
def uiRun (m : UIModel) : List UIEvent → Option UIModel
  | [] => some m
  | e :: es =>
    match uiStep m e with
    | some m' => uiRun m' es
    | none => none

/-! # Claims

Helper lemmas first, then one theorem per claim, each with a witness when its
statement carries hypotheses. -/

/-! ## C9 — filtering is idempotent -/

/-- C9: the prefix filter of `updateFilteredHosts` is idempotent — applying
the same filter text a second time to the already-filtered, otherwise
unchanged view returns the same list (the empty filter text included). -/
theorem applyFilter_idempotent (view : List Host) (ft : List Char) :
    applyFilter (applyFilter view ft) ft = applyFilter view ft := by
  unfold applyFilter
  by_cases h : ft.isEmpty
  · simp [h]
  · simp [h, List.filter_filter]

/-! ## C5 — characterization of the filtered list -/

def c5h1 : Host := { initialHost "alpha" with menuNumber := 1, descText := "d" }
def c5h2 : Host := { initialHost "beta" with menuNumber := 2, descText := "d" }
def c5h10 : Host := { initialHost "gamma" with menuNumber := 10, descText := "d" }
def c5h11 : Host := { initialHost "delta" with menuNumber := 11, descText := "d" }
def c5h100 : Host := { initialHost "epsilon" with menuNumber := 100, descText := "d" }

def c5ExampleHosts : List Host := [c5h1, c5h2, c5h10, c5h11, c5h100]

/-- C5: with a nonempty filter text the recomputed filtered list contains
exactly the view hosts whose menu number's decimal representation has the
filter text as a prefix, or whose short or long name has it as a
case-insensitive prefix; the filtered list is a sublist of the view (original
relative order); an empty filter text returns the view unchanged; and the
filter text `"1"` against menu numbers 1, 2, 10, 11, 100 matches exactly
1, 10, 11, 100. -/
theorem updateFilteredHosts_filter_characterization :
    (∀ (view : List Host) (ft : List Char), ft ≠ [] → ∀ h : Host,
      h ∈ applyFilter view ft ↔
        h ∈ view ∧
          (List.isPrefixOf ft (Nat.repr h.menuNumber).data = true ∨
           List.isPrefixOf (lowerChars ft) (lowerChars h.shortName.data) = true ∨
           List.isPrefixOf (lowerChars ft) (lowerChars h.longName.data) = true)) ∧
    (∀ (view : List Host) (ft : List Char), (applyFilter view ft).Sublist view) ∧
    (∀ view : List Host, applyFilter view [] = view) ∧
    applyFilter c5ExampleHosts ['1'] = [c5h1, c5h10, c5h11, c5h100] := by
  refine ⟨?_, ?_, ?_, ?_⟩
  · intro view ft hft h
    have hne : ft.isEmpty = false := by
      cases ft with
      | nil => exact absurd rfl hft
      | cons c cs => rfl
    unfold applyFilter
    rw [hne]
    simp only [List.isEmpty_nil, Bool.false_eq_true, if_false, List.mem_filter,
      hostMatchesFilter, Bool.or_eq_true]
    exact and_congr_right fun _ => or_assoc
  · intro view ft
    unfold applyFilter
    by_cases h : ft.isEmpty
    · simp [h]
    · simp [h, List.filter_sublist]
  · intro view
    rfl
  · decide

/-- Witness for C5 at a concrete host and filter text. -/
theorem updateFilteredHosts_filter_characterization_witness :
    c5h2 ∈ applyFilter c5ExampleHosts ['1'] ↔
      c5h2 ∈ c5ExampleHosts ∧
        (List.isPrefixOf ['1'] (Nat.repr c5h2.menuNumber).data = true ∨
         List.isPrefixOf (lowerChars ['1']) (lowerChars c5h2.shortName.data) = true ∨
         List.isPrefixOf (lowerChars ['1']) (lowerChars c5h2.longName.data) = true) :=
  updateFilteredHosts_filter_characterization.1 c5ExampleHosts ['1'] (by decide) c5h2

/-! ## C6 — color priority -/

def c6Env : ColorEnv :=
  { background := "#1e1e2e", foreground := "", border := "", selected := "",
    accent := "", dimmed := "" }

def c6File : Option (List String) := some ["# ColorBackground: #ff0000"]

/-- C6 counterexample: the environment variable `SSH_MENU_COLOR_BACKGROUND`
is set (nonempty) to the built-in default `"#1e1e2e"`, the configuration file
carries `# ColorBackground: #ff0000`, and the computed background is the file
color, not the environment color — the claimed strict priority of a nonempty
environment variable over a file comment fails. -/
theorem colorPriority_counterexample :
    c6Env.background ≠ "" ∧
    (ApplyColorConfig c6Env c6File).background = "#ff0000" ∧
    "#ff0000" ≠ c6Env.background := by decide

/-- Closed form of one merged color slot. -/
theorem mergeSlot (e d f : String) :
    (if (if e ≠ "" then e else d) = d ∧ f ≠ "" then f else (if e ≠ "" then e else d)) =
      (if e ≠ "" ∧ e ≠ d then e else if f ≠ "" then f else d) := by
  by_cases he : e = "" <;> by_cases hd : e = d <;> by_cases hf : f = "" <;> simp_all

/-- C6 amended: for every slot the startup color is the environment value
when it is nonempty and differs from the built-in default; otherwise the file
comment value when nonempty; otherwise the default.  In particular the
priority environment > file > default holds except that a nonempty
environment value equal to the built-in default is indistinguishable from an
unset variable, so a file comment still overrides it. -/
theorem colorPriority_amended (env : ColorEnv) (file : Option (List String)) :
    ((ApplyColorConfig env file).background =
      (if env.background ≠ "" ∧ env.background ≠ DefaultColors.background then env.background
       else if (readColorsFromConfig file).background ≠ "" then
         (readColorsFromConfig file).background
       else DefaultColors.background)) ∧
    ((ApplyColorConfig env file).foreground =
      (if env.foreground ≠ "" ∧ env.foreground ≠ DefaultColors.foreground then env.foreground
       else if (readColorsFromConfig file).foreground ≠ "" then
         (readColorsFromConfig file).foreground
       else DefaultColors.foreground)) ∧
    ((ApplyColorConfig env file).border =
      (if env.border ≠ "" ∧ env.border ≠ DefaultColors.border then env.border
       else if (readColorsFromConfig file).border ≠ "" then
         (readColorsFromConfig file).border
       else DefaultColors.border)) ∧
    ((ApplyColorConfig env file).selected =
      (if env.selected ≠ "" ∧ env.selected ≠ DefaultColors.selected then env.selected
       else if (readColorsFromConfig file).selected ≠ "" then
         (readColorsFromConfig file).selected
       else DefaultColors.selected)) ∧
    ((ApplyColorConfig env file).accent =
      (if env.accent ≠ "" ∧ env.accent ≠ DefaultColors.accent then env.accent
       else if (readColorsFromConfig file).accent ≠ "" then
         (readColorsFromConfig file).accent
       else DefaultColors.accent)) ∧
    ((ApplyColorConfig env file).dimmed =
      (if env.dimmed ≠ "" ∧ env.dimmed ≠ DefaultColors.dimmed then env.dimmed
       else if (readColorsFromConfig file).dimmed ≠ "" then
         (readColorsFromConfig file).dimmed
       else DefaultColors.dimmed)) :=
  ⟨mergeSlot _ _ _, mergeSlot _ _ _, mergeSlot _ _ _,
   mergeSlot _ _ _, mergeSlot _ _ _, mergeSlot _ _ _⟩

/-! ## C7 — the group filter runs before direct selection -/

theorem mem_filterHostsByGroup {hosts : List Host} {g : String} {h : Host}
    (hm : h ∈ filterHostsByGroup hosts g) : memberOfGroup h g = true := by
  unfold filterHostsByGroup at hm
  unfold memberOfGroup
  by_cases hg : g = "Ungrouped"
  · rw [if_pos hg] at hm
    rw [if_pos hg]
    exact (List.mem_filter.mp hm).2
  · rw [if_neg hg] at hm
    rw [if_neg hg]
    exact (List.mem_filter.mp hm).2

theorem directSelection_mem {hosts : List Host} {input : String} {h : Host}
    (hs : handleDirectHostSelection hosts input = some h) : h ∈ hosts := by
  unfold handleDirectHostSelection at hs
  cases hg : goAtoi input.data <;> rw [hg] at hs <;>
    exact List.mem_of_find?_eq_some hs

/-- C7: when both a group filter and a direct positional argument are given,
the group filter restricts the candidate set first, so a host outside the
requested group can never be the direct selection, whatever the argument
(short name, long name, IP or menu number). -/
theorem groupFilter_blocks_direct_selection
    (hosts : List Host) (group input : String) (h : Host)
    (hg : group ≠ "") (hout : memberOfGroup h group = false) :
    selectHostMain hosts group input ≠ some h := by
  intro hsel
  unfold selectHostMain at hsel
  rw [if_pos hg] at hsel
  by_cases hemp : (filterHostsByGroup hosts group).isEmpty
  · rw [if_pos hemp] at hsel
    exact Option.noConfusion hsel
  · rw [if_neg hemp] at hsel
    have hmem := mem_filterHostsByGroup (directSelection_mem hsel)
    rw [hout] at hmem
    exact Bool.noConfusion hmem

def c7HostIn : Host :=
  { initialHost "a" with menuNumber := 1, descText := "d", groups := ["G"] }

def c7HostOut : Host := { initialHost "b" with menuNumber := 2, descText := "d" }

/-- Witness for C7: host `b` has no groups, so with `-g G` it cannot be
selected even by its own short name. -/
theorem groupFilter_blocks_direct_selection_witness :
    memberOfGroup c7HostOut "G" = false ∧
      selectHostMain [c7HostIn, c7HostOut] "G" "b" ≠ some c7HostOut :=
  ⟨by decide,
   groupFilter_blocks_direct_selection [c7HostIn, c7HostOut] "G" "b" c7HostOut
     (by decide) (by decide)⟩

/-! ## C1 — duplicate explicit menu numbers are fatal -/

/-- Relation that pass 1 of `AssignMenuNumbers` certifies on success: an
earlier entry with a nonzero number differs in number from every later
entry. -/
def noDupQ (x y : Host) : Prop := x.menuNumber ≠ 0 → x.menuNumber ≠ y.menuNumber

instance : DecidableRel noDupQ := fun x y =>
  inferInstanceAs (Decidable (x.menuNumber ≠ 0 → x.menuNumber ≠ y.menuNumber))

theorem checkDuplicates_ok_sound :
    ∀ (l : List Host) (used u : List Nat), checkDuplicates l used = .ok u →
      l.Pairwise noDupQ ∧ ∀ h ∈ l, h.menuNumber ≠ 0 → h.menuNumber ∉ used := by
  intro l
  induction l with
  | nil =>
    intro used u _
    exact ⟨List.Pairwise.nil, by simp⟩
  | cons h t ih =>
    intro used u hok
    unfold checkDuplicates at hok
    by_cases hz : h.menuNumber ≠ 0
    · rw [if_pos hz] at hok
      by_cases hmem : h.menuNumber ∈ used
      · rw [if_pos hmem] at hok
        exact Except.noConfusion hok
      · rw [if_neg hmem] at hok
        obtain ⟨hp, hnotin⟩ := ih _ _ hok
        constructor
        · refine List.Pairwise.cons (fun g hg hz' => ?_) hp
          by_cases hgz : g.menuNumber ≠ 0
          · have hni := hnotin g hg hgz
            simp only [List.mem_cons, not_or] at hni
            exact fun he => hni.1 he.symm
          · push_neg at hgz
            rw [hgz]
            exact hz'
        · intro h' hh' hz'
          rcases List.mem_cons.mp hh' with rfl | hh't
          · exact hmem
          · have hni := hnotin h' hh't hz'
            simp only [List.mem_cons, not_or] at hni
            exact hni.2
    · rw [if_neg hz] at hok
      push_neg at hz
      obtain ⟨hp, hnotin⟩ := ih _ _ hok
      constructor
      · exact List.Pairwise.cons (fun g _ hz' => absurd hz (by simpa using hz')) hp
      · intro h' hh' hz'
        rcases List.mem_cons.mp hh' with rfl | hh't
        · exact absurd hz (by simpa using hz')
        · exact hnotin h' hh't hz'

/-- C1: whenever two distinct entries of the list carry the same nonzero
explicit menu number, `AssignMenuNumbers` reports the duplicate and
terminates the process (modelled by `Except.error`), no matter how many other
entries exist — it never silently keeps one of the two. -/
theorem assignMenuNumbers_duplicate_fatal
    (hosts : List Host) (i j : Nat) (hi : i < hosts.length) (hj : j < hosts.length)
    (hne : i ≠ j) (heq : hosts[i].menuNumber = hosts[j].menuNumber)
    (hnz : hosts[i].menuNumber ≠ 0) :
    ∃ e, AssignMenuNumbers hosts = .error e := by
  cases hcd : checkDuplicates hosts [] with
  | error e =>
    refine ⟨e, ?_⟩
    unfold AssignMenuNumbers
    rw [hcd]
    rfl
  | ok u =>
    exfalso
    obtain ⟨hp, -⟩ := checkDuplicates_ok_sound hosts [] u hcd
    rw [List.pairwise_iff_getElem] at hp
    rcases Nat.lt_or_ge i j with hij | hij
    · exact hp i j hi hj hij hnz heq
    · have hji : j < i := Nat.lt_of_le_of_ne hij (Ne.symm hne)
      have hjnz : hosts[j].menuNumber ≠ 0 := heq ▸ hnz
      exact hp j i hj hi hji hjnz heq.symm

def c1Hosts : List Host :=
  [{ initialHost "a" with menuNumber := 5, descText := "d" },
   { initialHost "b" with menuNumber := 5, descText := "d" },
   { initialHost "c" with menuNumber := 0, descText := "d" }]

/-- Witness for C1 at a concrete three-entry list. -/
theorem assignMenuNumbers_duplicate_fatal_witness :
    ∃ e, AssignMenuNumbers c1Hosts = .error e :=
  assignMenuNumbers_duplicate_fatal c1Hosts 0 1 (by decide) (by decide) (by decide)
    (by decide) (by decide)

/-! ## C4 — pass 2 assigns the smallest free numbers, then sorts -/

theorem listMax_ge : ∀ (l : List Nat) (m : Nat), m ∈ l → m ≤ listMax l := by
  intro l
  induction l with
  | nil => intro m hm; exact absurd hm (List.not_mem_nil m)
  | cons n t ih =>
    intro m hm
    rcases List.mem_cons.mp hm with rfl | hm'
    · exact le_max_left _ _
    · exact le_trans (ih m hm') (le_max_right _ _)

theorem nextFreeAux_spec : ∀ (fuel : Nat) (used : List Nat) (n : Nat),
    listMax used < fuel + n →
    n ≤ nextFreeAux fuel used n ∧ nextFreeAux fuel used n ∉ used ∧
      ∀ k, n ≤ k → k < nextFreeAux fuel used n → k ∈ used := by
  intro fuel
  induction fuel with
  | zero =>
    intro used n hlt
    have hself : nextFreeAux 0 used n = n := rfl
    rw [hself]
    refine ⟨le_refl n, fun hmem => ?_, fun k h1 h2 => absurd (lt_of_le_of_lt h1 h2) (by omega)⟩
    have := listMax_ge used n hmem
    omega
  | succ fuel ih =>
    intro used n hlt
    have hstep : nextFreeAux (fuel + 1) used n =
        if n ∈ used then nextFreeAux fuel used (n + 1) else n := rfl
    rw [hstep]
    by_cases hmem : n ∈ used
    · rw [if_pos hmem]
      obtain ⟨h1, h2, h3⟩ := ih used (n + 1) (by omega)
      refine ⟨by omega, h2, fun k hk1 hk2 => ?_⟩
      rcases Nat.eq_or_lt_of_le hk1 with rfl | hlt'
      · exact hmem
      · exact h3 k (by omega) hk2
    · rw [if_neg hmem]
      exact ⟨le_refl n, hmem, fun k hk1 hk2 => absurd (lt_of_le_of_lt hk1 hk2) (by omega)⟩

theorem nextFree_spec (used : List Nat) (n : Nat) :
    n ≤ nextFree used n ∧ nextFree used n ∉ used ∧
      ∀ k, n ≤ k → k < nextFree used n → k ∈ used :=
  nextFreeAux_spec (listMax used + 1) used n (by omega)

/-- The Go pass-2 scan does not restart from 1, but as long as every positive
number below the carried counter is already used, it finds the same number a
restarted scan finds. -/
theorem nextFree_eq_of_below (used : List Nat) (next : Nat) (h1 : 1 ≤ next)
    (hbelow : ∀ k, 1 ≤ k → k < next → k ∈ used) :
    nextFree used next = nextFree used 1 := by
  obtain ⟨a1, a2, a3⟩ := nextFree_spec used next
  obtain ⟨b1, b2, b3⟩ := nextFree_spec used 1
  have hle : nextFree used 1 ≤ nextFree used next := by
    by_contra hgt
    push_neg at hgt
    exact a2 (b3 _ (by omega) hgt)
  have hge : nextFree used next ≤ nextFree used 1 := by
    by_contra hgt
    push_neg at hgt
    have hk : nextFree used 1 ∈ used := by
      by_cases hc : nextFree used 1 < next
      · exact hbelow _ b1 hc
      · exact a3 _ (by omega) hgt
    exact b2 hk
  omega

theorem assignLoop_eq_pass2Spec :
    ∀ (l : List Host) (used : List Nat) (next : Nat), 1 ≤ next →
      (∀ k, 1 ≤ k → k < next → k ∈ used) →
      assignLoop l used next = pass2Spec l used := by
  intro l
  induction l with
  | nil => intro used next _ _; rfl
  | cons h t ih =>
    intro used next h1 hbelow
    by_cases hz : h.menuNumber = 0
    · have hv : nextFree used next = nextFree used 1 := nextFree_eq_of_below used next h1 hbelow
      obtain ⟨b1, b2, b3⟩ := nextFree_spec used 1
      simp only [assignLoop, pass2Spec]
      rw [if_pos hz, if_pos hz, hv]
      congr 1
      refine ih _ _ b1 ?_
      intro k hk1 hk2
      exact List.mem_cons_of_mem _ (b3 k hk1 hk2)
    · simp only [assignLoop, pass2Spec]
      rw [if_neg hz, if_neg hz]
      congr 1
      exact ih used next h1 hbelow

theorem collectExplicit_all_zero :
    ∀ (l : List Host) (used : List Nat), (∀ h ∈ l, h.menuNumber = 0) →
      collectExplicit l used = used := by
  intro l
  induction l with
  | nil => intros; rfl
  | cons h t ih =>
    intro used hall
    have hz : h.menuNumber = 0 := hall h (List.mem_cons_self h t)
    have hnz : ¬ h.menuNumber ≠ 0 := by simp [hz]
    simp only [collectExplicit]
    rw [if_neg hnz]
    exact ih used (fun g hg => hall g (List.mem_cons_of_mem h hg))

theorem pass2Spec_all_zero :
    ∀ (l : List Host) (used : List Nat) (m : Nat), 1 ≤ m →
      (∀ h ∈ l, h.menuNumber = 0) → (∀ k, k ∈ used ↔ (1 ≤ k ∧ k < m)) →
      pass2Spec l used = l.mapIdx fun i h => { h with menuNumber := m + i } := by
  intro l
  induction l with
  | nil => intros; rfl
  | cons h t ih =>
    intro used m hm hall hiff
    have hz : h.menuNumber = 0 := hall h (List.mem_cons_self h t)
    have hv : nextFree used 1 = m := by
      obtain ⟨b1, b2, b3⟩ := nextFree_spec used 1
      have hub : nextFree used 1 ≤ m := by
        by_contra hgt
        push_neg at hgt
        have := (hiff m).mp (b3 m hm hgt)
        omega
      have hlb : ¬ nextFree used 1 < m := fun hlt => b2 ((hiff _).mpr ⟨b1, hlt⟩)
      omega
    have htail : pass2Spec t (m :: used) =
        t.mapIdx fun i h => { h with menuNumber := (m + 1) + i } := by
      refine ih (m :: used) (m + 1) (by omega)
        (fun g hg => hall g (List.mem_cons_of_mem h hg)) ?_
      intro k
      simp only [List.mem_cons, hiff]
      omega
    have hfun : (fun i (h : Host) => ({ h with menuNumber := m + (i + 1) } : Host)) =
        fun i h => { h with menuNumber := (m + 1) + i } := by
      funext i h
      have : m + (i + 1) = (m + 1) + i := by omega
      rw [this]
    simp only [pass2Spec, List.mapIdx_cons, Nat.add_zero]
    rw [if_pos hz, hv]
    congr 1
    rw [htail, hfun]

theorem sorted_mapIdx_menu (l : List Host) (m : Nat) :
    List.Sorted menuLe (l.mapIdx fun i h => { h with menuNumber := m + i }) := by
  refine List.pairwise_iff_getElem.mpr ?_
  intro i j hi hj hij
  rw [List.getElem_mapIdx, List.getElem_mapIdx]
  show m + i ≤ m + j
  omega

theorem checkDuplicates_ok_complete :
    ∀ (l : List Host) (used : List Nat), l.Pairwise noDupQ →
      (∀ h ∈ l, h.menuNumber ≠ 0 → h.menuNumber ∉ used) →
      checkDuplicates l used = .ok (collectExplicit l used) := by
  intro l
  induction l with
  | nil => intros; rfl
  | cons h t ih =>
    intro used hp hcompat
    rw [List.pairwise_cons] at hp
    obtain ⟨hrel, hpt⟩ := hp
    by_cases hz : h.menuNumber ≠ 0
    · have hnm : h.menuNumber ∉ used := hcompat h (List.mem_cons_self h t) hz
      have hchk : checkDuplicates (h :: t) used = checkDuplicates t (h.menuNumber :: used) := by
        simp only [checkDuplicates]
        rw [if_pos hz, if_neg hnm]
      have hcoll : collectExplicit (h :: t) used = collectExplicit t (h.menuNumber :: used) := by
        simp only [collectExplicit]
        rw [if_pos hz]
      rw [hchk, hcoll]
      refine ih (h.menuNumber :: used) hpt ?_
      intro g hg hgz
      simp only [List.mem_cons, not_or]
      exact ⟨fun he => (hrel g hg hz) he.symm,
        hcompat g (List.mem_cons_of_mem h hg) hgz⟩
    · have hchk : checkDuplicates (h :: t) used = checkDuplicates t used := by
        simp only [checkDuplicates]
        rw [if_neg hz]
      have hcoll : collectExplicit (h :: t) used = collectExplicit t used := by
        simp only [collectExplicit]
        rw [if_neg hz]
      rw [hchk, hcoll]
      exact ih used hpt (fun g hg hgz => hcompat g (List.mem_cons_of_mem h hg) hgz)

/-- C4: on a list with no duplicate explicit menu numbers,
`AssignMenuNumbers` succeeds, and (i) the result is the sort by menu number of
the pass that gives every entry at 0, in list order, the smallest positive
integer not yet in the used set — scanning upward from 1 and marking each
assigned number used immediately (`pass2Spec`); (ii) `nextFree used 1` is
indeed that smallest positive integer for every used set; (iii) every
successful result is sorted by menu number ascending; (iv) when no entry has
an explicit number the result carries the numbers `1..N` over the entries in
their original relative order. -/
theorem assignMenuNumbers_spec (hosts : List Host) (hnd : hosts.Pairwise noDupQ) :
    AssignMenuNumbers hosts =
        .ok (sortByMenu (pass2Spec hosts (collectExplicit hosts []))) ∧
    (∀ used : List Nat, 1 ≤ nextFree used 1 ∧ nextFree used 1 ∉ used ∧
      ∀ m, 1 ≤ m → m ∉ used → nextFree used 1 ≤ m) ∧
    (∀ res, AssignMenuNumbers hosts = .ok res → List.Sorted menuLe res) ∧
    ((∀ h ∈ hosts, h.menuNumber = 0) →
      AssignMenuNumbers hosts = .ok (hosts.mapIdx fun i h => { h with menuNumber := i + 1 })) := by
  have hcd : checkDuplicates hosts [] = .ok (collectExplicit hosts []) :=
    checkDuplicates_ok_complete hosts [] hnd (by simp)
  have hmain : AssignMenuNumbers hosts =
      .ok (sortByMenu (assignLoop hosts (collectExplicit hosts []) 1)) := by
    unfold AssignMenuNumbers
    rw [hcd]
    rfl
  have haeq : assignLoop hosts (collectExplicit hosts []) 1 =
      pass2Spec hosts (collectExplicit hosts []) :=
    assignLoop_eq_pass2Spec hosts _ 1 (le_refl 1)
      (fun k h1 h2 => absurd (lt_of_le_of_lt h1 h2) (by omega))
  refine ⟨by rw [hmain, haeq], ?_, ?_, ?_⟩
  · intro used
    obtain ⟨b1, b2, b3⟩ := nextFree_spec used 1
    refine ⟨b1, b2, fun m hm hnot => ?_⟩
    by_contra hgt
    push_neg at hgt
    exact hnot (b3 m hm hgt)
  · intro res hres
    rw [hmain] at hres
    cases hres
    exact List.sorted_insertionSort menuLe _
  · intro hall
    rw [hmain, haeq, collectExplicit_all_zero hosts [] hall]
    have hp2 : pass2Spec hosts [] = hosts.mapIdx fun i h => { h with menuNumber := 1 + i } := by
      refine pass2Spec_all_zero hosts [] 1 (le_refl 1) hall ?_
      intro k
      constructor
      · intro hk
        exact absurd hk (List.not_mem_nil k)
      · intro hk
        omega
    rw [hp2]
    have hid : sortByMenu (hosts.mapIdx fun i h => { h with menuNumber := 1 + i }) =
        hosts.mapIdx fun i h => { h with menuNumber := 1 + i } :=
      List.Sorted.insertionSort_eq (sorted_mapIdx_menu hosts 1)
    rw [hid]
    have hfun : (fun i (h : Host) => ({ h with menuNumber := 1 + i } : Host)) =
        fun i h => { h with menuNumber := i + 1 } := by
      funext i h
      rw [Nat.add_comm]
    rw [hfun]

def c4Hosts : List Host :=
  [{ initialHost "web1" with descText := "Primary web", groups := ["Prod"] },
   { initialHost "db" with menuNumber := 1, descText := "Primary db", groups := ["Prod"] },
   { initialHost "lb" with descText := "LB", groups := ["Prod"] }]

/-- Witness for C4 at the spec's worked example (`db` explicit 1; `web1`,
`lb` receive 2 and 3). -/
theorem assignMenuNumbers_spec_witness :
    AssignMenuNumbers c4Hosts =
      .ok (sortByMenu (pass2Spec c4Hosts (collectExplicit c4Hosts []))) ∧
    (AssignMenuNumbers c4Hosts).map (List.map fun h => (h.shortName, h.menuNumber)) =
      .ok [("db", 1), ("web1", 2), ("lb", 3)] :=
  ⟨(assignMenuNumbers_spec c4Hosts (by decide)).1, by decide⟩

/-! ## C8 — `GetAllGroups`: union, `"Ungrouped"`, sorted with `"Ungrouped"` last -/

theorem mem_insertIfAbsent (s : String) (l : List String) (x : String) :
    x ∈ insertIfAbsent s l ↔ x = s ∨ x ∈ l := by
  unfold insertIfAbsent
  by_cases hmem : s ∈ l
  · rw [if_pos hmem]
    constructor
    · exact Or.inr
    · rintro (rfl | h)
      · exact hmem
      · exact h
  · rw [if_neg hmem]
    simp [List.mem_append, or_comm]

theorem nodup_insertIfAbsent (s : String) (l : List String) (h : l.Nodup) :
    (insertIfAbsent s l).Nodup := by
  unfold insertIfAbsent
  by_cases hmem : s ∈ l
  · rw [if_pos hmem]
    exact h
  · rw [if_neg hmem]
    simp [List.nodup_append, h, hmem]

theorem foldInsert_mem : ∀ (gs acc : List String) (x : String),
    x ∈ gs.foldl (fun a g => insertIfAbsent g a) acc ↔ x ∈ acc ∨ x ∈ gs := by
  intro gs
  induction gs with
  | nil => intro acc x; simp
  | cons g t ih =>
    intro acc x
    rw [List.foldl_cons, ih, mem_insertIfAbsent]
    simp only [List.mem_cons]
    tauto

theorem foldInsert_nodup : ∀ (gs acc : List String), acc.Nodup →
    (gs.foldl (fun a g => insertIfAbsent g a) acc).Nodup := by
  intro gs
  induction gs with
  | nil => intro acc h; exact h
  | cons g t ih =>
    intro acc h
    rw [List.foldl_cons]
    exact ih _ (nodup_insertIfAbsent g acc h)

theorem mem_collectGroups_general : ∀ (hosts : List Host) (acc : List String) (x : String),
    x ∈ hosts.foldl (fun acc h => h.groups.foldl (fun a g => insertIfAbsent g a) acc) acc ↔
      x ∈ acc ∨ ∃ h ∈ hosts, x ∈ h.groups := by
  intro hosts
  induction hosts with
  | nil => intro acc x; simp
  | cons h t ih =>
    intro acc x
    rw [List.foldl_cons, ih, foldInsert_mem]
    simp only [List.mem_cons]
    constructor
    · rintro ((hx | hx) | ⟨g, hg, hxg⟩)
      · exact Or.inl hx
      · exact Or.inr ⟨h, Or.inl rfl, hx⟩
      · exact Or.inr ⟨g, Or.inr hg, hxg⟩
    · rintro (hx | ⟨g, (rfl | hg), hxg⟩)
      · exact Or.inl (Or.inl hx)
      · exact Or.inl (Or.inr hxg)
      · exact Or.inr ⟨g, hg, hxg⟩

theorem mem_collectGroups (hosts : List Host) (x : String) :
    x ∈ collectGroups hosts ↔ ∃ h ∈ hosts, x ∈ h.groups := by
  unfold collectGroups
  rw [mem_collectGroups_general]
  simp

theorem nodup_collectGroups (hosts : List Host) : (collectGroups hosts).Nodup := by
  have key : ∀ (hs : List Host) (acc : List String), acc.Nodup →
      (hs.foldl (fun acc h => h.groups.foldl (fun a g => insertIfAbsent g a) acc) acc).Nodup := by
    intro hs
    induction hs with
    | nil => intro acc h; exact h
    | cons h t ih =>
      intro acc hn
      rw [List.foldl_cons]
      exact ih _ (foldInsert_nodup _ _ hn)
  exact key hosts [] List.nodup_nil

theorem sorted_ungrouped_last : ∀ (l : List String), List.Sorted groupLe l →
    "Ungrouped" ∈ l → l.getLast? = some "Ungrouped" := by
  intro l
  induction l with
  | nil => intro _ hm; exact absurd hm (List.not_mem_nil _)
  | cons x t ih =>
    intro hs hm
    cases t with
    | nil =>
      rcases List.mem_cons.mp hm with rfl | hm'
      · rfl
      · exact absurd hm' (List.not_mem_nil _)
    | cons y t' =>
      rw [List.getLast?_cons_cons]
      rw [List.sorted_cons] at hs
      obtain ⟨hrel, hst⟩ := hs
      rcases List.mem_cons.mp hm with rfl | hm'
      · have hy := hrel y (List.mem_cons_self y t')
        unfold groupLe goLessGroups at hy
        by_cases hyU : y = "Ungrouped"
        · refine ih hst ?_
          rw [← hyU]
          exact List.mem_cons_self y t'
        · rw [if_neg hyU, if_pos rfl] at hy
          exact Bool.noConfusion hy
      · exact ih hst hm'

/-- C8: `GetAllGroups` returns exactly the union of the group names carried
by some host, together with `"Ungrouped"` exactly when some host has zero
groups; each name once; sorted by the comparator that orders names
lexicographically and forces `"Ungrouped"` after everything; hence
`"Ungrouped"` is last whenever present. -/
theorem getAllGroups_spec (hosts : List Host) :
    (∀ g, g ∈ GetAllGroups hosts ↔
      (∃ h ∈ hosts, g ∈ h.groups) ∨ (g = "Ungrouped" ∧ ∃ h ∈ hosts, h.groups = [])) ∧
    List.Sorted groupLe (GetAllGroups hosts) ∧
    (GetAllGroups hosts).Nodup ∧
    ("Ungrouped" ∈ GetAllGroups hosts → (GetAllGroups hosts).getLast? = some "Ungrouped") := by
  have hsorted : List.Sorted groupLe (GetAllGroups hosts) :=
    List.sorted_insertionSort groupLe _
  refine ⟨?_, hsorted, ?_, fun hm => sorted_ungrouped_last _ hsorted hm⟩
  · intro g
    unfold GetAllGroups
    rw [List.mem_insertionSort]
    by_cases hu : hosts.any (fun h => h.groups.isEmpty)
    · rw [if_pos hu]
      rw [mem_insertIfAbsent, mem_collectGroups]
      have hex : ∃ h ∈ hosts, h.groups = [] := by
        rw [List.any_eq_true] at hu
        obtain ⟨h, hh, hemp⟩ := hu
        exact ⟨h, hh, List.isEmpty_iff.mp hemp⟩
      constructor
      · rintro (rfl | hmem)
        · exact Or.inr ⟨rfl, hex⟩
        · exact Or.inl hmem
      · rintro (hmem | ⟨rfl, -⟩)
        · exact Or.inr hmem
        · exact Or.inl rfl
    · rw [if_neg hu]
      rw [mem_collectGroups]
      constructor
      · exact Or.inl
      · rintro (hmem | ⟨rfl, h, hh, hemp⟩)
        · exact hmem
        · refine absurd hu ?_
          rw [not_not, List.any_eq_true]
          exact ⟨h, hh, List.isEmpty_iff.mpr hemp⟩
  · exact ((List.perm_insertionSort groupLe _).nodup_iff).mpr (by
      by_cases hu : hosts.any (fun h => h.groups.isEmpty)
      · rw [if_pos hu]
        exact nodup_insertIfAbsent _ _ (nodup_collectGroups hosts)
      · rw [if_neg hu]
        exact nodup_collectGroups hosts)

def c8Hosts : List Host :=
  [{ initialHost "a" with descText := "d", groups := ["Zeta"] },
   { initialHost "b" with descText := "d" },
   { initialHost "c" with descText := "d", groups := ["Alpha"] }]

/-- Witness for C8: concrete host list whose group list sorts to
`["Alpha", "Zeta", "Ungrouped"]`. -/
theorem getAllGroups_spec_witness :
    GetAllGroups c8Hosts = ["Alpha", "Zeta", "Ungrouped"] ∧
    (GetAllGroups c8Hosts).getLast? = some "Ungrouped" :=
  ⟨by decide, (getAllGroups_spec c8Hosts).2.2.2 (by decide)⟩

/-! ## C10 — the Enter handler never indexes out of bounds -/

/-- Invariant maintained by every event: the view index is nonnegative (it
starts at 0 and wraps inside `[0, totalViews)`), and whenever the filtered
list is nonempty the cursor is inside `[0, len-1]`. -/
def uiInv (m : UIModel) : Prop :=
  0 ≤ m.viewIndex ∧
    (m.filteredHosts ≠ [] → 0 ≤ m.cursor ∧ m.cursor < (m.filteredHosts.length : Int))

instance (m : UIModel) : Decidable (uiInv m) :=
  inferInstanceAs (Decidable (_ ∧ _))

theorem updateFilteredHosts_some (m : UIModel) (hvi : 0 ≤ m.viewIndex) :
    ∃ vh, updateFilteredHosts m = some { m with filteredHosts := applyFilter vh m.filterText } := by
  unfold updateFilteredHosts
  by_cases h0 : m.viewIndex = 0
  · rw [if_pos h0]
    exact ⟨m.hosts, rfl⟩
  · rw [if_neg h0]
    by_cases hlen : m.viewIndex - 1 < (m.groups.length : Int)
    · rw [if_pos hlen]
      have hge : 0 ≤ m.viewIndex - 1 := by omega
      have hlt : (m.viewIndex - 1).toNat < m.groups.length := by omega
      have hget : intGet? m.groups (m.viewIndex - 1) =
          some (m.groups.get ⟨(m.viewIndex - 1).toNat, hlt⟩) := by
        unfold intGet?
        rw [if_pos hge]
        exact List.get?_eq_get hlt
      rw [hget]
      exact ⟨getHostsForGroup m.hosts (m.groups.get ⟨(m.viewIndex - 1).toNat, hlt⟩), rfl⟩
    · rw [if_neg hlen]
      exact ⟨[], rfl⟩

theorem updateFilteredHosts_inv (m : UIModel) (hvi : 0 ≤ m.viewIndex) (hc : m.cursor = 0) :
    ∃ m', updateFilteredHosts m = some m' ∧ uiInv m' := by
  obtain ⟨vh, heq⟩ := updateFilteredHosts_some m hvi
  refine ⟨_, heq, hvi, fun hne => ?_⟩
  have hne' : applyFilter vh m.filterText ≠ [] := hne
  have hlen := List.length_pos.mpr hne'
  show 0 ≤ m.cursor ∧ m.cursor < ((applyFilter vh m.filterText).length : Int)
  rw [hc]
  exact ⟨le_refl 0, by omega⟩

theorem updateThenReset_inv (m : UIModel) (hvi : 0 ≤ m.viewIndex) :
    ∃ m', (updateFilteredHosts m).map (fun x => { x with cursor := 0 }) = some m' ∧
      uiInv m' := by
  obtain ⟨vh, heq⟩ := updateFilteredHosts_some m hvi
  rw [heq]
  refine ⟨_, rfl, hvi, fun hne => ?_⟩
  have hne' : applyFilter vh m.filterText ≠ [] := hne
  have hlen := List.length_pos.mpr hne'
  show (0 : Int) ≤ 0 ∧ (0 : Int) < ((applyFilter vh m.filterText).length : Int)
  exact ⟨le_refl 0, by omega⟩

theorem moveCursor_inv (m : UIModel) (d : Int) (hinv : uiInv m) : uiInv (moveCursor m d) := by
  obtain ⟨hvi, hcur⟩ := hinv
  refine ⟨hvi, fun hne => ?_⟩
  have hne' : m.filteredHosts ≠ [] := hne
  have hlen := List.length_pos.mpr hne'
  show 0 ≤ (if m.cursor + d < 0 then (0 : Int)
      else if (m.filteredHosts.length : Int) ≤ m.cursor + d then
        (m.filteredHosts.length : Int) - 1
      else m.cursor + d) ∧
    (if m.cursor + d < 0 then (0 : Int)
      else if (m.filteredHosts.length : Int) ≤ m.cursor + d then
        (m.filteredHosts.length : Int) - 1
      else m.cursor + d) < (m.filteredHosts.length : Int)
  split_ifs <;> omega

theorem navigateView_inv (m : UIModel) (d : Int) (_hvi : 0 ≤ m.viewIndex) :
    ∃ m', navigateView m d = some m' ∧ uiInv m' := by
  apply updateFilteredHosts_inv
  · show (0 : Int) ≤
      (if m.viewIndex + d < 0 then (1 + (m.groups.length : Int)) - 1
       else if (1 + (m.groups.length : Int)) ≤ m.viewIndex + d then 0
       else m.viewIndex + d)
    split_ifs <;> omega
  · rfl

theorem handleEnterKey_inv (m : UIModel) (hinv : uiInv m) :
    ∃ m', handleEnterKey m = some m' ∧ uiInv m' := by
  obtain ⟨hvi, hcur⟩ := hinv
  unfold handleEnterKey
  by_cases h1 : m.filteredHosts.length = 1
  · rw [if_pos h1]
    have hg : intGet? m.filteredHosts 0 =
        some (m.filteredHosts.get ⟨0, by omega⟩) := by
      unfold intGet?
      rw [if_pos (le_refl (0 : Int))]
      exact List.get?_eq_get (by omega)
    rw [hg]
    exact ⟨_, rfl, hvi, fun hne => hcur hne⟩
  · rw [if_neg h1]
    by_cases h2 : 0 < m.filteredHosts.length ∧ m.cursor < (m.filteredHosts.length : Int)
    · rw [if_pos h2]
      have hne : m.filteredHosts ≠ [] := by
        intro he
        rw [he] at h2
        exact absurd h2.1 (by simp)
      obtain ⟨hc0, hclt⟩ := hcur hne
      have hg : intGet? m.filteredHosts m.cursor =
          some (m.filteredHosts.get ⟨m.cursor.toNat, by omega⟩) := by
        unfold intGet?
        rw [if_pos hc0]
        exact List.get?_eq_get (by omega)
      rw [hg]
      exact ⟨_, rfl, hvi, fun hne' => hcur hne'⟩
    · rw [if_neg h2]
      exact ⟨m, rfl, hvi, hcur⟩

theorem uiStep_inv (m : UIModel) (e : UIEvent) (hinv : uiInv m) :
    ∃ m', uiStep m e = some m' ∧ uiInv m' := by
  obtain ⟨hvi, hcur⟩ := hinv
  cases e with
  | esc => exact ⟨m, rfl, hvi, hcur⟩
  | other => exact ⟨m, rfl, hvi, hcur⟩
  | resize w h => exact ⟨_, rfl, hvi, fun hne => hcur hne⟩
  | up => exact ⟨_, rfl, moveCursor_inv m (-1) ⟨hvi, hcur⟩⟩
  | down => exact ⟨_, rfl, moveCursor_inv m 1 ⟨hvi, hcur⟩⟩
  | left => exact navigateView_inv m (-1) hvi
  | right => exact navigateView_inv m 1 hvi
  | tab => exact navigateView_inv m 1 hvi
  | enter => exact handleEnterKey_inv m ⟨hvi, hcur⟩
  | backspace =>
    show ∃ m', handleBackspace m = some m' ∧ uiInv m'
    unfold handleBackspace
    by_cases hft : m.filterText.isEmpty
    · rw [if_pos hft]
      exact ⟨m, rfl, hvi, hcur⟩
    · rw [if_neg hft]
      exact updateThenReset_inv _ hvi
  | chars s =>
    show ∃ m', handleTypedCharacter m s = some m' ∧ uiInv m'
    unfold handleTypedCharacter
    exact updateThenReset_inv _ hvi

theorem uiRun_inv : ∀ (es : List UIEvent) (m : UIModel), uiInv m →
    ∃ m', uiRun m es = some m' ∧ uiInv m' := by
  intro es
  induction es with
  | nil => intro m hinv; exact ⟨m, rfl, hinv⟩
  | cons e es ih =>
    intro m hinv
    obtain ⟨m1, hstep, hinv1⟩ := uiStep_inv m e hinv
    obtain ⟨m2, hrun, hinv2⟩ := ih m1 hinv1
    refine ⟨m2, ?_, hinv2⟩
    unfold uiRun
    rw [hstep]
    exact hrun

/-- C10: starting from any state satisfying the cursor invariant — in
particular one with a nonempty filtered list and cursor 0, as long as the
view index is nonnegative, which holds in every reachable state since
`SetupUI` starts it at 0 and `navigateView` wraps it inside range — every
event sequence runs without any out-of-range slice access (`uiRun` never
returns `none`) and preserves the invariant; the Confirm handler is a no-op
whenever the filtered list is empty; and on an empty filtered list a
cursor-down event parks the cursor at `-1`, exactly as the claim observes. -/
theorem selector_cursor_safety :
    (∀ m : UIModel, uiInv m → ∀ es, ∃ m', uiRun m es = some m' ∧ uiInv m') ∧
    (∀ m : UIModel, m.filteredHosts ≠ [] → m.cursor = 0 → 0 ≤ m.viewIndex → uiInv m) ∧
    (∀ m : UIModel, m.filteredHosts = [] → uiStep m .enter = some m) ∧
    (∀ m : UIModel, m.filteredHosts = [] → 0 ≤ m.cursor → (moveCursor m 1).cursor = -1) := by
  refine ⟨fun m hinv es => uiRun_inv es m hinv, ?_, ?_, ?_⟩
  · intro m hne hc hvi
    refine ⟨hvi, fun hne' => ?_⟩
    rw [hc]
    have := List.length_pos.mpr hne'
    exact ⟨le_refl 0, by omega⟩
  · intro m hemp
    show handleEnterKey m = some m
    unfold handleEnterKey
    rw [if_neg (by rw [hemp]; simp), if_neg (by rw [hemp]; simp)]
  · intro m hemp hc
    show (if m.cursor + 1 < 0 then (0 : Int)
      else if (m.filteredHosts.length : Int) ≤ m.cursor + 1 then
        (m.filteredHosts.length : Int) - 1
      else m.cursor + 1) = -1
    rw [hemp]
    simp only [List.length_nil, Nat.cast_zero]
    rw [if_neg (by omega), if_pos (by omega)]
    decide

def c10Host : Host := { initialHost "a" with menuNumber := 1, descText := "d" }

def c10Model : UIModel :=
  { hosts := [c10Host], selected := none, verbose := false, detailed := false,
    sshOpts := "", cursor := 0, viewIndex := 0, groups := [],
    filteredHosts := [c10Host], filterText := [], width := 0, height := 0 }

/-- Witness for C10: a concrete run mixing cursor moves, a filter character
that empties the list, Enter on the empty list, and backspace. -/
theorem selector_cursor_safety_witness :
    ∃ m', uiRun c10Model
        [UIEvent.down, UIEvent.chars ['z'], UIEvent.enter, UIEvent.down,
         UIEvent.backspace, UIEvent.enter] = some m' ∧ uiInv m' :=
  selector_cursor_safety.1 c10Model (by decide) _

/-! ## C2 — a non-numeric explicit menu number is ignored, not fatal

The menu pattern's number group is `(\d+)`: it can only ever capture digits,
so a line `# Menu <non-numeric>: <text>` does not match the pattern at all
and falls through to the parser's ignore-unknown-lines default.  The fatal
`invalid menu number` branch of `handleMenuLine` is reachable only through
`strconv.Atoi` overflow on a matching all-digit capture. -/

def c2Lines : List String := ["Host a", "# Menu abc: x", "# Menu: ok"]

/-- C2 counterexample: a file containing `# Menu abc: x` parses successfully;
the malformed line has no effect on the resulting entry, contradicting the
claimed fatal parse error. -/
theorem menuJunk_not_fatal_counterexample :
    readConfigFile c2Lines = .ok [{ initialHost "a" with descText := "ok" }] := by
  decide

/-- General shape of such a line once trimmed: `#`, a space, `Menu`, a space,
the junk `w`, a colon, and an arbitrary tail. -/
def menuJunkLine (w u : List Char) : List Char :=
  '#' :: ' ' :: 'M' :: 'e' :: 'n' :: 'u' :: ' ' :: (w ++ ':' :: u)

theorem takeWhile_append_of_exists {p : Char → Bool} :
    ∀ (w r : List Char), (∃ c ∈ w, p c = false) →
      (w ++ r).takeWhile p = w.takeWhile p ∧ (w ++ r).dropWhile p = w.dropWhile p ++ r := by
  intro w
  induction w with
  | nil =>
    intro r h
    obtain ⟨c, hc, -⟩ := h
    exact absurd hc (List.not_mem_nil c)
  | cons a as ih =>
    intro r h
    by_cases ha : p a = true
    · have h' : ∃ c ∈ as, p c = false := by
        obtain ⟨c, hc, hpc⟩ := h
        rcases List.mem_cons.mp hc with rfl | hc'
        · rw [ha] at hpc
          exact Bool.noConfusion hpc
        · exact ⟨c, hc', hpc⟩
      obtain ⟨ht, hd⟩ := ih r h'
      constructor
      · rw [List.cons_append, List.takeWhile_cons, List.takeWhile_cons, if_pos ha, if_pos ha, ht]
      · rw [List.cons_append, List.dropWhile_cons, List.dropWhile_cons, if_pos ha, if_pos ha, hd]
    · constructor
      · rw [List.cons_append, List.takeWhile_cons, List.takeWhile_cons, if_neg ha, if_neg ha]
      · rw [List.cons_append, List.dropWhile_cons, List.dropWhile_cons, if_neg ha, if_neg ha,
          List.cons_append]

theorem dropWhile_head_false {p : Char → Bool} :
    ∀ (l : List Char) (c : Char) (r : List Char), l.dropWhile p = c :: r → p c = false := by
  intro l
  induction l with
  | nil =>
    intro c r h
    exact absurd h (by simp)
  | cons a as ih =>
    intro c r h
    rw [List.dropWhile_cons] at h
    by_cases ha : p a = true
    · rw [if_pos ha] at h
      exact ih c r h
    · rw [if_neg ha] at h
      injection h with hac _
      rw [← hac]
      revert ha
      cases p a <;> simp

theorem menuNumAndColon_none_of_heads (s : List Char)
    (hns : s.head? ≠ some ':')
    (hhead : ((s.dropWhile isRegexSpace).dropWhile Char.isDigit).head? ≠ some ':') :
    menuNumAndColon s = none := by
  have hb : (((s.dropWhile isRegexSpace).dropWhile Char.isDigit).head? == some ':') = false := by
    cases hh : ((s.dropWhile isRegexSpace).dropWhile Char.isDigit).head? with
    | none => rfl
    | some c =>
      have hcne : c ≠ ':' := fun hc => hhead (by rw [hh, hc])
      simp [hcne]
  simp only [menuNumAndColon]
  rw [hb]
  simp only [Bool.and_false, Bool.false_eq_true, if_false]
  cases s with
  | nil => rfl
  | cons c cs =>
    by_cases hc : c = ':'
    · exact absurd (show (c :: cs).head? = some ':' by rw [hc]; rfl) hns
    · show (if c = ':' then some (none, cs) else none) = none
      rw [if_neg hc]

theorem matchMenu_menuJunk_none (w u : List Char) (h1 : w ≠ [])
    (h2 : ∀ c ∈ w, isRegexSpace c = false ∧ c ≠ ':')
    (h3 : ∃ c ∈ w, c.isDigit = false) :
    matchMenu (menuJunkLine w u) = none := by
  obtain ⟨a, as, rfl⟩ : ∃ a as, w = a :: as := by
    cases w with
    | nil => exact absurd rfl h1
    | cons a as => exact ⟨a, as, rfl⟩
  have hasp : isRegexSpace a = false := (h2 a (List.mem_cons_self a as)).1
  have hdrop : (' ' :: ((a :: as) ++ ':' :: u)).dropWhile isRegexSpace =
      (a :: as) ++ ':' :: u := by
    rw [List.dropWhile_cons, if_pos (by decide), List.cons_append,
      List.dropWhile_cons, if_neg (by rw [hasp]; exact fun hc => Bool.noConfusion hc),
      ← List.cons_append]
  obtain ⟨-, hdd⟩ := takeWhile_append_of_exists (p := Char.isDigit) (a :: as) (':' :: u) h3
  have hne : (a :: as).dropWhile Char.isDigit ≠ [] := by
    intro hnil
    rw [List.dropWhile_eq_nil_iff] at hnil
    obtain ⟨c, hc, hcd⟩ := h3
    rw [hnil c hc] at hcd
    exact Bool.noConfusion hcd
  obtain ⟨b, bs, hbbs⟩ : ∃ b bs, (a :: as).dropWhile Char.isDigit = b :: bs := by
    cases hd : (a :: as).dropWhile Char.isDigit with
    | nil => exact absurd hd hne
    | cons b bs => exact ⟨b, bs, rfl⟩
  have hbmem : b ∈ a :: as := by
    have hbm : b ∈ (a :: as).dropWhile Char.isDigit := by
      rw [hbbs]
      exact List.mem_cons_self b bs
    exact List.Sublist.mem hbm (List.dropWhile_sublist _)
  have hbne : b ≠ ':' := (h2 b hbmem).2
  have hcol : menuNumAndColon (' ' :: ((a :: as) ++ ':' :: u)) = none := by
    refine menuNumAndColon_none_of_heads _ (by rw [List.head?_cons]; simp) ?_
    rw [hdrop, hdd, hbbs, List.cons_append, List.head?_cons]
    simp [hbne]
  show (match menuNumAndColon (' ' :: ((a :: as) ++ ':' :: u)) with
    | some nc =>
      match starSpacesCap nc.2 with
      | some cap => some (nc.1, cap)
      | none => none
    | none => none) = none
  rw [hcol]

theorem applyNonHostLine_menuJunk (w u : List Char) (h1 : w ≠ [])
    (h2 : ∀ c ∈ w, isRegexSpace c = false ∧ c ≠ ':')
    (h3 : ∃ c ∈ w, c.isDigit = false) (cur : Host) :
    applyNonHostLine (menuJunkLine w u) cur = .ok cur := by
  have hmenu := matchMenu_menuJunk_none w u h1 h2 h3
  unfold applyNonHostLine
  rw [hmenu]
  rfl

theorem parseLineStep_menuJunk (w u : List Char) (h1 : w ≠ [])
    (h2 : ∀ c ∈ w, isRegexSpace c = false ∧ c ≠ ':')
    (h3 : ∃ c ∈ w, c.isDigit = false) (st : List Host × Host) :
    parseLineStep (menuJunkLine w u) st = .ok st := by
  unfold parseLineStep
  rw [applyNonHostLine_menuJunk w u h1 h2 h3 st.2]
  rfl

theorem trimRight_append (xs ys : List Char) :
    trimRight (xs ++ ys) = if trimRight ys = [] then trimRight xs else xs ++ trimRight ys := by
  unfold trimRight
  rw [List.reverse_append, List.dropWhile_append]
  by_cases hy : (ys.reverse.dropWhile isGoSpace).isEmpty
  · rw [if_pos hy, if_pos]
    rw [List.isEmpty_iff] at hy
    rw [hy]
    rfl
  · rw [if_neg hy, if_neg]
    · rw [List.reverse_append, List.reverse_reverse]
    · rw [List.isEmpty_iff] at hy
      intro hc
      exact hy (by rw [← List.reverse_reverse (ys.reverse.dropWhile isGoSpace), hc]; rfl)

theorem trimRight_ends_nonspace (A : List Char) (c : Char) (hc : isGoSpace c = false) :
    trimRight (A ++ [c]) = A ++ [c] := by
  unfold trimRight
  rw [List.reverse_append]
  show ((c :: A.reverse).dropWhile isGoSpace).reverse = A ++ [c]
  rw [List.dropWhile_cons, if_neg (by rw [hc]; exact Bool.noConfusion)]
  rw [List.reverse_cons, List.reverse_reverse]

theorem trimSpace_menuJunk (w t : List Char) :
    ∃ u, trimSpace ("# Menu ".data ++ w ++ ':' :: ' ' :: t) = menuJunkLine w u := by
  have hsplit : "# Menu ".data ++ w ++ ':' :: ' ' :: t =
      (("# Menu ".data ++ w ++ [':']) ++ (' ' :: t)) := by
    simp [List.append_assoc]
  have hleft : trimLeft ("# Menu ".data ++ w ++ ':' :: ' ' :: t) =
      "# Menu ".data ++ w ++ ':' :: ' ' :: t := rfl
  unfold trimSpace
  rw [hleft, hsplit, trimRight_append]
  have hxs : trimRight ("# Menu ".data ++ w ++ [':']) = "# Menu ".data ++ w ++ [':'] := by
    rw [List.append_assoc]
    rw [show "# Menu ".data ++ (w ++ [':']) = ("# Menu ".data ++ w) ++ [':'] from
      (List.append_assoc _ _ _).symm]
    exact trimRight_ends_nonspace _ ':' (by decide)
  by_cases hy : trimRight (' ' :: t) = []
  · rw [if_pos hy, hxs]
    refine ⟨[], ?_⟩
    unfold menuJunkLine
    simp [List.append_assoc]
  · rw [if_neg hy]
    refine ⟨trimRight (' ' :: t), ?_⟩
    unfold menuJunkLine
    simp [List.append_assoc]

/-- C2 amended: a line of the form `# Menu <w>: <t>` whose number position
`w` is nonempty, free of spaces and colons, and not all digits, does not
match the menu pattern; it is silently ignored like any other unrecognized
line, so the whole parse result is as if the line were absent — parsing does
not fail on it.  (The fatal `invalid menu number` error remains reachable
only via a matching all-digit number that overflows `strconv.Atoi`.) -/
theorem menuJunk_ignored (w t : String) (pre post : List String)
    (h1 : w.data ≠ []) (h2 : ∀ c ∈ w.data, isRegexSpace c = false ∧ c ≠ ':')
    (h3 : ∃ c ∈ w.data, c.isDigit = false) :
    readConfigFile (pre ++ ("# Menu " ++ w ++ ": " ++ t) :: post) =
      readConfigFile (pre ++ post) := by
  have hdata : ("# Menu " ++ w ++ ": " ++ t).data =
      "# Menu ".data ++ w.data ++ ':' :: ' ' :: t.data := by
    simp [String.data_append]
  obtain ⟨u, hu⟩ := trimSpace_menuJunk w.data t.data
  have hstep : ∀ st : List Host × Host, readStep st ("# Menu " ++ w ++ ": " ++ t) = .ok st := by
    intro st
    unfold readStep
    rw [hdata, hu]
    show (if (menuJunkLine w.data u).isEmpty = true then (pure st : Except String _)
      else parseLineStep (menuJunkLine w.data u) st) = Except.ok st
    rw [show (menuJunkLine w.data u).isEmpty = false from rfl]
    simp only [Bool.false_eq_true, if_false]
    exact parseLineStep_menuJunk w.data u h1 h2 h3 st
  unfold readConfigFile
  rw [List.foldlM_append, List.foldlM_append]
  cases hpre : List.foldlM readStep (([], emptyHost) : List Host × Host) pre with
  | error e => rfl
  | ok s =>
    have hmid : List.foldlM readStep s (("# Menu " ++ w ++ ": " ++ t) :: post) =
        List.foldlM readStep s post := by
      rw [List.foldlM_cons, hstep s]
      rfl
    show (List.foldlM readStep s (("# Menu " ++ w ++ ": " ++ t) :: post) >>=
        fun st => (pure (retainHost st.1 st.2) : Except String (List Host))) =
      (List.foldlM readStep s post >>=
        fun st => (pure (retainHost st.1 st.2) : Except String (List Host)))
    rw [hmid]

/-- Witness for C2's amended statement at a concrete file. -/
theorem menuJunk_ignored_witness :
    readConfigFile (["Host a"] ++ ("# Menu " ++ "abc" ++ ": " ++ "x") :: ["# Menu: ok"]) =
      readConfigFile (["Host a"] ++ ["# Menu: ok"]) :=
  menuJunk_ignored "abc" "x" ["Host a"] ["# Menu: ok"] (by decide) (by decide) (by decide)

/-! ## C3 — the parser returns exactly the retained blocks, in file order -/

theorem capRest_ne_nil (s cap : List Char) (h : capRest s = some cap) : cap ≠ [] := by
  unfold capRest at h
  by_cases hcond : (!s.isEmpty && s.all fun c => c != '\n') = true
  · rw [if_pos hcond] at h
    injection h with h'
    rw [← h']
    intro hnil
    rw [hnil] at hcond
    simp at hcond
  · rw [if_neg hcond] at h
    exact absurd h (by simp)

theorem starSpacesCap_ne_nil : ∀ (s cap : List Char), starSpacesCap s = some cap → cap ≠ [] := by
  intro s
  induction s with
  | nil =>
    intro cap h
    exact absurd h (by simp [starSpacesCap])
  | cons c cs ih =>
    intro cap h
    simp only [starSpacesCap] at h
    by_cases hc : isRegexSpace c = true
    · rw [if_pos hc] at h
      cases hr : starSpacesCap cs with
      | some r =>
        rw [hr] at h
        injection h with h'
        rw [← h']
        exact ih r hr
      | none =>
        rw [hr] at h
        exact capRest_ne_nil _ _ h
    · rw [if_neg hc] at h
      exact capRest_ne_nil _ _ h

theorem spacesPlusCap_ne_nil : ∀ (s cap : List Char), spacesPlusCap s = some cap → cap ≠ [] := by
  intro s
  induction s with
  | nil =>
    intro cap h
    exact absurd h (by simp [spacesPlusCap])
  | cons c cs ih =>
    intro cap h
    simp only [spacesPlusCap] at h
    by_cases hc : isRegexSpace c = true
    · rw [if_pos hc] at h
      cases hr : spacesPlusCap cs with
      | some r =>
        rw [hr] at h
        injection h with h'
        rw [← h']
        exact ih r hr
      | none =>
        rw [hr] at h
        exact capRest_ne_nil _ _ h
    · rw [if_neg hc] at h
      exact absurd h (by simp)

theorem matchKeywordRest_cap_ne (kw s cap : List Char)
    (h : matchKeywordRest kw s = some cap) : cap ≠ [] := by
  unfold matchKeywordRest at h
  cases hd : dropLit kw s with
  | some rest =>
    rw [hd] at h
    exact spacesPlusCap_ne_nil rest cap h
  | none =>
    rw [hd] at h
    exact absurd h (by simp)

theorem matchHost_name_ne (s nm : List Char) (h : matchHost s = some nm) : nm ≠ [] :=
  matchKeywordRest_cap_ne _ s nm h

theorem matchMenu_head (l : List Char) (nc : Option (List Char) × List Char)
    (h : matchMenu l = some nc) : ∃ rest, l = '#' :: rest := by
  cases l with
  | nil => exact absurd h (by simp [matchMenu])
  | cons c0 rest =>
    simp only [matchMenu] at h
    by_cases hc : c0 = '#'
    · exact ⟨rest, by rw [hc]⟩
    · rw [if_neg hc] at h
      exact absurd h (by simp)

theorem matchMenu_cap_ne (l : List Char) (nc : Option (List Char) × List Char)
    (h : matchMenu l = some nc) : nc.2 ≠ [] := by
  obtain ⟨rest, rfl⟩ := matchMenu_head l nc h
  simp only [matchMenu, if_true] at h
  cases h2 : dropLit "Menu".data (rest.dropWhile isRegexSpace) with
  | none =>
    simp only [h2] at h
    exact absurd h (by simp)
  | some r2 =>
    simp only [h2] at h
    cases h3 : menuNumAndColon r2 with
    | none =>
      simp only [h3] at h
      exact absurd h (by simp)
    | some nc2 =>
      simp only [h3] at h
      cases h4 : starSpacesCap nc2.2 with
      | none =>
        simp only [h4] at h
        exact absurd h (by simp)
      | some cap =>
        simp only [h4] at h
        injection h with h'
        rw [← h']
        exact starSpacesCap_ne_nil _ _ h4

/-- When the menu pattern matches, the earlier patterns in `parseLine` cannot
(they need a letter where the line has `#`), so the line is handled by
`handleMenuLine`. -/
theorem applyNonHostLine_of_menu (l : List Char) (nc : Option (List Char) × List Char)
    (hm : matchMenu l = some nc) (cur : Host) :
    applyNonHostLine l cur = handleMenuLine nc.1 nc.2 cur := by
  obtain ⟨rest, rfl⟩ := matchMenu_head l nc hm
  unfold applyNonHostLine
  rw [hm]
  rfl

theorem handleMenuLine_desc (num : Option (List Char)) (cap : List Char) (cur c : Host)
    (hcap : cap ≠ []) (h : handleMenuLine num cap cur = .ok c) : c.descText ≠ "" := by
  have hne : (⟨cap⟩ : String) ≠ "" := fun hc => hcap (congrArg String.data hc)
  cases num with
  | some ds =>
    unfold handleMenuLine at h
    cases ha : atoiDigits ds with
    | some n =>
      simp only [ha] at h
      cases h
      exact hne
    | none =>
      simp only [ha] at h
      exact absurd h (by simp)
  | none =>
    unfold handleMenuLine at h
    cases h
    exact hne

/-- Effect of one non-`Host` line on the tracked fields: the short name is
never touched; the description is either untouched or set to something
nonempty; and a line the menu pattern does not match leaves the description
untouched. -/
theorem applyNonHostLine_effect (l : List Char) (cur c : Host)
    (h : applyNonHostLine l cur = .ok c) :
    c.shortName = cur.shortName ∧
    (c.descText = cur.descText ∨ c.descText ≠ "") ∧
    (matchMenu l = none → c.descText = cur.descText) := by
  unfold applyNonHostLine at h
  cases h1 : matchKeywordRest "Hostname".data l with
  | some cap =>
    simp only [h1] at h
    cases h
    exact ⟨rfl, Or.inl rfl, fun _ => rfl⟩
  | none =>
  simp only [h1] at h
  cases h2 : matchKeywordRest "User".data l with
  | some cap =>
    simp only [h2] at h
    cases h
    exact ⟨rfl, Or.inl rfl, fun _ => rfl⟩
  | none =>
  simp only [h2] at h
  cases h3 : matchKeywordDigits "Port".data l with
  | some ds =>
    simp only [h3] at h
    cases h
    exact ⟨rfl, Or.inl rfl, fun _ => rfl⟩
  | none =>
  simp only [h3] at h
  cases h4 : matchKeywordRest "IdentityFile".data l with
  | some cap =>
    simp only [h4] at h
    cases h
    exact ⟨rfl, Or.inl rfl, fun _ => rfl⟩
  | none =>
  simp only [h4] at h
  cases h5 : matchMenu l with
  | some nc =>
    simp only [h5] at h
    have hdesc := handleMenuLine_desc nc.1 nc.2 cur c (matchMenu_cap_ne l nc h5) h
    have hsn : c.shortName = cur.shortName := by
      unfold handleMenuLine at h
      cases hnc : nc.1 with
      | some ds =>
        simp only [hnc] at h
        cases ha : atoiDigits ds with
        | some n =>
          simp only [ha] at h
          cases h
          rfl
        | none =>
          simp only [ha] at h
          exact absurd h (by simp)
      | none =>
        simp only [hnc] at h
        cases h
        rfl
    exact ⟨hsn, Or.inr hdesc, fun hnone => absurd hnone (by simp [h5])⟩
  | none =>
  simp only [h5] at h
  cases h6 : matchHashTag "IP:".data l with
  | some cap =>
    simp only [h6] at h
    cases h
    exact ⟨rfl, Or.inl rfl, fun _ => rfl⟩
  | none =>
  simp only [h6] at h
  cases h7 : matchHashTag "Group:".data l with
  | some cap =>
    simp only [h7] at h
    cases h
    unfold handleGroupLine
    by_cases hg : goTrimSpace (⟨cap⟩ : String) ∈ cur.groups
    · simp [hg]
    · simp [hg]
  | none =>
  simp only [h7] at h
  cases h8 : matchKeywordDigits "ConnectTimeout".data l with
  | some ds =>
    simp only [h8] at h
    cases h
    exact ⟨rfl, Or.inl rfl, fun _ => rfl⟩
  | none =>
  simp only [h8] at h
  cases h9 : matchKeywordDigits "ServerAliveInterval".data l with
  | some ds =>
    simp only [h9] at h
    cases h
    exact ⟨rfl, Or.inl rfl, fun _ => rfl⟩
  | none =>
  simp only [h9] at h
  cases h10 : matchKeywordDigits "ServerAliveCountMax".data l with
  | some ds =>
    simp only [h10] at h
    cases h
    exact ⟨rfl, Or.inl rfl, fun _ => rfl⟩
  | none =>
  simp only [h10] at h
  cases h
  exact ⟨rfl, Or.inl rfl, fun _ => rfl⟩

theorem processBlock_cons (l : List Char) (ls : List (List Char)) (cur : Host) :
    processBlock cur (l :: ls) =
      applyNonHostLine l cur >>= fun c2 => processBlock c2 ls := by
  unfold processBlock
  rw [List.foldlM_cons]

theorem processBlock_shortName : ∀ (ls : List (List Char)) (cur c : Host),
    processBlock cur ls = .ok c → c.shortName = cur.shortName := by
  intro ls
  induction ls with
  | nil =>
    intro cur c h
    cases h
    rfl
  | cons l t ih =>
    intro cur c h
    rw [processBlock_cons] at h
    cases ha : applyNonHostLine l cur with
    | error e =>
      rw [ha] at h
      exact Except.noConfusion h
    | ok c2 =>
      rw [ha] at h
      have hstep := (applyNonHostLine_effect l cur c2 ha).1
      rw [ih c2 c h, hstep]

theorem processBlock_desc_kept : ∀ (ls : List (List Char)) (cur c : Host),
    cur.descText ≠ "" → processBlock cur ls = .ok c → c.descText ≠ "" := by
  intro ls
  induction ls with
  | nil =>
    intro cur c hd h
    cases h
    exact hd
  | cons l t ih =>
    intro cur c hd h
    rw [processBlock_cons] at h
    cases ha : applyNonHostLine l cur with
    | error e =>
      rw [ha] at h
      exact Except.noConfusion h
    | ok c2 =>
      rw [ha] at h
      rcases (applyNonHostLine_effect l cur c2 ha).2.1 with heq | hne
      · exact ih c2 c (heq ▸ hd) h
      · exact ih c2 c hne h

theorem processBlock_desc_of_no_menu : ∀ (ls : List (List Char)) (cur c : Host),
    (∀ x ∈ ls, matchMenu x = none) → processBlock cur ls = .ok c →
    c.descText = cur.descText := by
  intro ls
  induction ls with
  | nil =>
    intro cur c _ h
    cases h
    rfl
  | cons l t ih =>
    intro cur c hnm h
    rw [processBlock_cons] at h
    cases ha : applyNonHostLine l cur with
    | error e =>
      rw [ha] at h
      exact Except.noConfusion h
    | ok c2 =>
      rw [ha] at h
      have hd2 := (applyNonHostLine_effect l cur c2 ha).2.2
        (hnm l (List.mem_cons_self l t))
      rw [ih c2 c (fun x hx => hnm x (List.mem_cons_of_mem l hx)) h, hd2]

theorem processBlock_menu_desc : ∀ (ls : List (List Char)) (cur c : Host),
    (∃ x ∈ ls, (matchMenu x).isSome) → processBlock cur ls = .ok c →
    c.descText ≠ "" := by
  intro ls
  induction ls with
  | nil =>
    intro cur c hex _
    obtain ⟨x, hx, -⟩ := hex
    exact absurd hx (List.not_mem_nil x)
  | cons l t ih =>
    intro cur c hex h
    rw [processBlock_cons] at h
    cases ha : applyNonHostLine l cur with
    | error e =>
      rw [ha] at h
      exact Except.noConfusion h
    | ok c2 =>
      rw [ha] at h
      by_cases hl : (matchMenu l).isSome
      · obtain ⟨nc, hnc⟩ := Option.isSome_iff_exists.mp hl
        have hml := applyNonHostLine_of_menu l nc hnc cur
        rw [hml] at ha
        have hd2 := handleMenuLine_desc nc.1 nc.2 cur c2 (matchMenu_cap_ne l nc hnc) ha
        exact processBlock_desc_kept t c2 c hd2 h
      · obtain ⟨x, hx, hxs⟩ := hex
        rcases List.mem_cons.mp hx with rfl | hxt
        · exact absurd hxs hl
        · exact ih c2 c ⟨x, hxt, hxs⟩ h

theorem splitBlocksAux_eq : ∀ (ls : List (List Char)) (n : List Char) (acc : List (List Char)),
    splitBlocksAux n acc ls = (n, acc ++ (splitBlocks ls).1) :: (splitBlocks ls).2 := by
  intro ls
  induction ls with
  | nil =>
    intro n acc
    simp [splitBlocksAux, splitBlocks]
  | cons l t ih =>
    intro n acc
    cases hm : matchHost l with
    | some n' =>
      simp [splitBlocksAux, splitBlocks, hm]
    | none =>
      simp [splitBlocksAux, splitBlocks, hm, ih]

theorem splitBlocksAux_names : ∀ (ls : List (List Char)) (n : List Char)
    (acc : List (List Char)) (b : List Char × List (List Char)),
    b ∈ splitBlocksAux n acc ls → b.1 = n ∨ ∃ x ∈ ls, matchHost x = some b.1 := by
  intro ls
  induction ls with
  | nil =>
    intro n acc b hb
    simp only [splitBlocksAux, List.mem_singleton] at hb
    rw [hb]
    exact Or.inl rfl
  | cons l t ih =>
    intro n acc b hb
    simp only [splitBlocksAux] at hb
    cases hm : matchHost l with
    | some n' =>
      rw [hm] at hb
      rcases List.mem_cons.mp hb with rfl | hb'
      · exact Or.inl rfl
      · rcases ih n' [] b hb' with heq | ⟨x, hx, hxm⟩
        · exact Or.inr ⟨l, List.mem_cons_self l t, heq ▸ hm⟩
        · exact Or.inr ⟨x, List.mem_cons_of_mem l hx, hxm⟩
    | none =>
      rw [hm] at hb
      rcases ih n (acc ++ [l]) b hb with heq | ⟨x, hx, hxm⟩
      · exact Or.inl heq
      · exact Or.inr ⟨x, List.mem_cons_of_mem l hx, hxm⟩

theorem splitBlocks_names : ∀ (ls : List (List Char)) (b : List Char × List (List Char)),
    b ∈ (splitBlocks ls).2 → ∃ x ∈ ls, matchHost x = some b.1 := by
  intro ls
  induction ls with
  | nil =>
    intro b hb
    exact absurd hb (List.not_mem_nil b)
  | cons l t ih =>
    intro b hb
    cases hm : matchHost l with
    | some n =>
      unfold splitBlocks at hb
      rw [hm] at hb
      rcases splitBlocksAux_names t n [] b hb with heq | ⟨x, hx, hxm⟩
      · exact ⟨l, List.mem_cons_self l t, heq ▸ hm⟩
      · exact ⟨x, List.mem_cons_of_mem l hx, hxm⟩
    | none =>
      unfold splitBlocks at hb
      rw [hm] at hb
      obtain ⟨x, hx, hxm⟩ := ih b hb
      exact ⟨x, List.mem_cons_of_mem l hx, hxm⟩

theorem foldRead_eq_prepped : ∀ (lines : List String) (st : List Host × Host),
    lines.foldlM readStep st =
      (prepLines lines).foldlM (fun st l => parseLineStep l st) st := by
  intro lines
  induction lines with
  | nil => intro st; rfl
  | cons l ls ih =>
    intro st
    have hprep : prepLines (l :: ls) =
        if (trimSpace l.data).isEmpty then prepLines ls
        else trimSpace l.data :: prepLines ls := by
      unfold prepLines
      rw [List.map_cons, List.filter_cons]
      by_cases he : (trimSpace l.data).isEmpty = true <;> simp [he]
    rw [List.foldlM_cons]
    by_cases he : (trimSpace l.data).isEmpty = true
    · have hr : readStep st l = pure st := by
        unfold readStep
        show (if (trimSpace l.data).isEmpty = true then (pure st : Except String _)
          else parseLineStep (trimSpace l.data) st) = pure st
        rw [if_pos he]
      rw [hprep, if_pos he, hr]
      show ls.foldlM readStep st = (prepLines ls).foldlM (fun st l => parseLineStep l st) st
      exact ih st
    · have hr : readStep st l = parseLineStep (trimSpace l.data) st := by
        unfold readStep
        show (if (trimSpace l.data).isEmpty = true then (pure st : Except String _)
          else parseLineStep (trimSpace l.data) st) = _
        rw [if_neg he]
      rw [hprep, if_neg he, hr, List.foldlM_cons]
      cases hp : parseLineStep (trimSpace l.data) st with
      | error e => rfl
      | ok st' =>
        show ls.foldlM readStep st' =
          (prepLines ls).foldlM (fun st l => parseLineStep l st) st'
        exact ih st'

theorem readConfigFile_eq_parsePrepped (lines : List String) :
    readConfigFile lines = parsePrepped (prepLines lines) := by
  unfold readConfigFile parsePrepped
  rw [foldRead_eq_prepped]

/-- Core of C3: the line-by-line fold with finalize-on-`Host`-line is the
independent per-block processing followed by the retention filter. -/
theorem parse_fold_blocks : ∀ (ls : List (List Char)) (hosts : List Host) (cur : Host),
    (do
      let st ← ls.foldlM (fun st l => parseLineStep l st) ((hosts, cur) : List Host × Host)
      pure (retainHost st.1 st.2)) =
    (do
      let c ← processBlock cur (splitBlocks ls).1
      let hs ← (splitBlocks ls).2.mapM (fun b => processBlock (initialHost ⟨b.1⟩) b.2)
      pure (retainHost hosts c ++ hs.filter retainedB) : Except String (List Host)) := by
  intro ls
  induction ls with
  | nil =>
    intro hosts cur
    show Except.ok (retainHost hosts cur) = Except.ok (retainHost hosts cur ++ [])
    rw [List.append_nil]
  | cons l t ih =>
    intro hosts cur
    cases hm : matchHost l with
    | some n =>
      have hstep : parseLineStep l ((hosts, cur) : List Host × Host) =
          .ok (retainHost hosts cur, initialHost ⟨n⟩) := by
        unfold parseLineStep
        rw [hm]
      have hsplit : splitBlocks (l :: t) = ([], splitBlocksAux n [] t) := by
        unfold splitBlocks
        rw [hm]
      rw [List.foldlM_cons, hstep, hsplit, splitBlocksAux_eq, List.nil_append]
      have hIH := ih (retainHost hosts cur) (initialHost ⟨n⟩)
      show (t.foldlM (fun st l => parseLineStep l st)
          ((retainHost hosts cur, initialHost ⟨n⟩) : List Host × Host) >>=
            fun st => (pure (retainHost st.1 st.2) : Except String (List Host))) = _
      rw [hIH]
      -- compare the block-shaped computations
      rw [List.mapM_cons]
      cases hc : processBlock (initialHost ⟨n⟩) (splitBlocks t).1 with
      | error e => rfl
      | ok c =>
        cases hrest : (splitBlocks t).2.mapM (fun b => processBlock (initialHost ⟨b.1⟩) b.2) with
        | error e => rfl
        | ok rest =>
          show Except.ok (retainHost (retainHost hosts cur) c ++ rest.filter retainedB) =
            Except.ok (retainHost hosts cur ++ (c :: rest).filter retainedB)
          congr 1
          rw [List.filter_cons]
          unfold retainHost
          by_cases hr : retainedB c = true <;> simp [hr, List.append_assoc]
    | none =>
      have hstep : parseLineStep l ((hosts, cur) : List Host × Host) =
          (applyNonHostLine l cur).map (fun c => (hosts, c)) := by
        unfold parseLineStep
        rw [hm]
      have hsplit : splitBlocks (l :: t) = (l :: (splitBlocks t).1, (splitBlocks t).2) := by
        conv_lhs => rw [splitBlocks]
        rw [hm]
      rw [List.foldlM_cons, hstep, hsplit, processBlock_cons]
      cases ha : applyNonHostLine l cur with
      | error e => rfl
      | ok c2 =>
        have hIH := ih hosts c2
        show (t.foldlM (fun st l => parseLineStep l st) ((hosts, c2) : List Host × Host) >>=
            fun st => (pure (retainHost st.1 st.2) : Except String (List Host))) = _
        rw [hIH]
        rfl

theorem mapM_ok_props {α β : Type} (f : α → Except String β) :
    ∀ (l : List α) (r : List β), l.mapM f = .ok r →
      r.length = l.length ∧ ∀ b ∈ r, ∃ a ∈ l, f a = .ok b := by
  intro l
  induction l with
  | nil =>
    intro r h
    rw [List.mapM_nil] at h
    cases h
    exact ⟨rfl, by simp⟩
  | cons a t ih =>
    intro r h
    rw [List.mapM_cons] at h
    cases hf : f a with
    | error e =>
      rw [hf] at h
      exact Except.noConfusion h
    | ok b =>
      rw [hf] at h
      cases ht : t.mapM f with
      | error e =>
        rw [ht] at h
        exact Except.noConfusion h
      | ok bs =>
        rw [ht] at h
        have h' : Except.ok (b :: bs) = Except.ok r := h
        cases h'
        obtain ⟨hlen, hmem⟩ := ih bs ht
        refine ⟨by simp [hlen], ?_⟩
        intro x hx
        rcases List.mem_cons.mp hx with rfl | hx'
        · exact ⟨a, List.mem_cons_self a t, hf⟩
        · obtain ⟨a', ha', hfa⟩ := hmem x hx'
          exact ⟨a', List.mem_cons_of_mem a ha', hfa⟩

/-- C3: (i) `readConfigFile` equals the block view `blocksSpec`: each `Host`
block is processed independently from a fresh entry, finalized at the next
`Host` line or end of file, and exactly the blocks whose final short name and
description are both nonempty are returned, in file order; (ii) when the
parse succeeds and every block carries a line matching the menu pattern, the
result holds exactly one entry per block; (iii) a block none of whose lines
matches the menu pattern can never produce a retained entry. -/
theorem parser_blocks_characterization :
    (∀ lines, readConfigFile lines = blocksSpec lines) ∧
    (∀ lines hs, readConfigFile lines = .ok hs →
      (∀ b ∈ (splitBlocks (prepLines lines)).2, ∃ x ∈ b.2, (matchMenu x).isSome) →
      hs.length = (splitBlocks (prepLines lines)).2.length) ∧
    (∀ lines (b : List Char × List (List Char)),
      b ∈ (splitBlocks (prepLines lines)).2 → (∀ x ∈ b.2, matchMenu x = none) →
      ∀ c, processBlock (initialHost ⟨b.1⟩) b.2 = .ok c → retainedB c = false) := by
  have hmain : ∀ lines, readConfigFile lines = blocksSpec lines := by
    intro lines
    rw [readConfigFile_eq_parsePrepped]
    unfold parsePrepped blocksSpec
    rw [parse_fold_blocks (prepLines lines) [] emptyHost]
    cases hc : processBlock emptyHost (splitBlocks (prepLines lines)).1 with
    | error e => rfl
    | ok c =>
      have hsn : c.shortName = "" := processBlock_shortName _ emptyHost c hc
      have hret : retainHost [] c = [] := by
        unfold retainHost retainedB
        rw [hsn]
        rfl
      cases hrest : (splitBlocks (prepLines lines)).2.mapM
          (fun b => processBlock (initialHost ⟨b.1⟩) b.2) with
      | error e => rfl
      | ok hsAll =>
        show Except.ok (retainHost [] c ++ hsAll.filter retainedB) =
          Except.ok (hsAll.filter retainedB)
        rw [hret, List.nil_append]
  refine ⟨hmain, ?_, ?_⟩
  · intro lines hs hok hmenu
    rw [hmain] at hok
    unfold blocksSpec at hok
    cases hc : processBlock emptyHost (splitBlocks (prepLines lines)).1 with
    | error e =>
      rw [hc] at hok
      exact Except.noConfusion hok
    | ok c =>
      rw [hc] at hok
      cases hrest : (splitBlocks (prepLines lines)).2.mapM
          (fun b => processBlock (initialHost ⟨b.1⟩) b.2) with
      | error e =>
        rw [hrest] at hok
        exact Except.noConfusion hok
      | ok hsAll =>
        rw [hrest] at hok
        have hok' : Except.ok (hsAll.filter retainedB) = Except.ok hs := hok
        cases hok'
        obtain ⟨hlen, hmem⟩ := mapM_ok_props _ _ _ hrest
        have hall : ∀ x ∈ hsAll, retainedB x = true := by
          intro x hx
          obtain ⟨b, hb, hpb⟩ := hmem x hx
          have hsn : x.shortName = (⟨b.1⟩ : String) :=
            processBlock_shortName _ _ x hpb
          obtain ⟨ln, hln, hlnm⟩ := splitBlocks_names _ b hb
          have hb1 : b.1 ≠ [] := matchHost_name_ne ln b.1 hlnm
          have hsne : x.shortName ≠ "" := by
            rw [hsn]
            exact fun hcon => hb1 (congrArg String.data hcon)
          have hdesc : x.descText ≠ "" := processBlock_menu_desc _ _ x (hmenu b hb) hpb
          unfold retainedB
          rw [Bool.and_eq_true, bne_iff_ne, bne_iff_ne]
          exact ⟨hsne, hdesc⟩
        rw [List.filter_eq_self.mpr hall, hlen]
  · intro lines b _ hnone c hpb
    have hsn : c.shortName = (⟨b.1⟩ : String) := processBlock_shortName _ _ c hpb
    have hdesc : c.descText = "" := by
      rw [processBlock_desc_of_no_menu _ _ c hnone hpb]
      rfl
    unfold retainedB
    rw [hdesc]
    simp

def c3Lines : List String := ["Host a", "# Menu: x", "Host b", "# Menu 2: y"]

def c3HostA : Host := { initialHost "a" with descText := "x" }

def c3HostB : Host := { initialHost "b" with descText := "y", menuNumber := 2 }

/-- Witness for C3 at a concrete two-block configuration: both blocks carry a
menu comment and the parse yields one entry per block. -/
theorem parser_blocks_characterization_witness :
    readConfigFile c3Lines = .ok [c3HostA, c3HostB] ∧
    ([c3HostA, c3HostB] : List Host).length =
      (splitBlocks (prepLines c3Lines)).2.length :=
  ⟨by decide,
   parser_blocks_characterization.2.1 c3Lines [c3HostA, c3HostB] (by decide) (by decide)⟩

end SshMenu
